import Mathlib

/-!
# Verification of `hungarian.h` (Kuhn–Munkres assignment solver)

Shallow embedding of the solver in `src/hungarian.h`.  The C++ template
parameter `T` is a floating-point type with an `infinity` sentinel (`vFill`);
it is modelled here by `ECost`, rationals extended with an infinite element,
with the arithmetic operations the source actually performs (the second
argument of every subtraction in the source is finite, and additions only use
a finite right operand).

The solver state (`St`) mirrors the fields of the `Hungarian` class that are
live across calls: `colCovered`, `rowCovered`, `cost`, `zeros`, `primedZeros`,
`starredZeros`.  `colInds`, `workerRows` and `workerCosts` are recomputed from
scratch before every use in the source (`fillColInds`, `rebalanceWorkers`,
the `std::fill` in `findMinUncoveredCost`), so they are modelled as locally
computed values.  The worker pool is modelled by the number of workers `w`
plus the partition `rebalanceWorkers` produces; each worker's loop is run
sequentially over its row range (the ranges are proved disjoint, so the
parallel execution is equivalent).

The unbounded `while` loops of the source (`compute`'s outer loop, the
uncovered-zero loop of `iterate`, and the alternating-path loop) are embedded
with explicit fuel returning `Option`; `none` means the fuel ran out, and the
theorems prove the chosen fuel always suffices.
-/

namespace Hungarian

/-- Extended costs: the values of the C++ cost type `T`, i.e. rationals plus
the `infinity` sentinel `vFill`. -/
inductive ECost where
  | inf : ECost
  | fin : ℚ → ECost
deriving DecidableEq, Repr

namespace ECost

/-- Addition as used by the source (second operand is always finite there):
`inf + x = inf`, matching IEEE `infinity + h`. -/
def add : ECost → ECost → ECost
  | inf, _ => inf
  | fin _, inf => inf
  | fin a, fin b => fin (a + b)

/-- Subtraction as used by the source (second operand is always finite there):
`inf - x = inf`, matching IEEE `infinity - h` for finite `h`. -/
def sub : ECost → ECost → ECost
  | inf, _ => inf
  | fin _, inf => inf
  | fin a, fin b => fin (a - b)

/-- Strict comparison `a < b`, with `inf` greater than every finite value and
`inf < inf` false (as for IEEE infinities). -/
def blt : ECost → ECost → Bool
  | inf, _ => false
  | fin _, inf => true
  | fin a, fin b => decide (a < b)

/-- `std::min(a, b)`: returns `b` exactly when `b < a`. -/
def emin (a b : ECost) : ECost := if blt b a then b else a

/-- The value is `≥ 0` (the sentinel counts as nonnegative). -/
def Nonneg : ECost → Prop
  | inf => True
  | fin q => 0 ≤ q

instance : DecidablePred Nonneg := fun c => by
  cases c with
  | inf => exact isTrue trivial
  | fin q => exact inferInstanceAs (Decidable (0 ≤ q))

@[simp] theorem add_inf_left (b : ECost) : add inf b = inf := rfl
@[simp] theorem sub_inf_left (b : ECost) : sub inf b = inf := rfl
@[simp] theorem add_fin_fin (a b : ℚ) : add (fin a) (fin b) = fin (a + b) := rfl
@[simp] theorem sub_fin_fin (a b : ℚ) : sub (fin a) (fin b) = fin (a - b) := rfl

theorem emin_eq_or (a b : ECost) : emin a b = a ∨ emin a b = b := by
  unfold emin; split <;> simp

theorem blt_irrefl (a : ECost) : blt a a = false := by
  cases a <;> simp [blt]

theorem blt_trans {a b c : ECost} : blt a b = true → blt b c = true → blt a c = true := by
  cases a <;> cases b <;> cases c <;> simp [blt]
  exact lt_trans

theorem not_blt_total {a b : ECost} (h : blt a b = false) (h' : blt b a = false) : a = b := by
  cases a <;> cases b <;> simp [blt] at *
  exact le_antisymm h' h

end ECost

/-- The solver state: the fields of class `Hungarian` that are live across
calls (with `numRow = numCol = N`).  `starredZeros[row] = -1` is modelled as
`none`; `primedZeros` is a plain vector value-initialised to `0`, exactly as
`std::vector<size_t> primedZeros(numRow)` is. -/
structure St (N : ℕ) where
  colCovered : Fin N → Bool
  rowCovered : Fin N → Bool
  cost : Fin N → Fin N → ECost
  zeros : Fin N → List (Fin N)
  primedZeros : Fin N → Fin N
  starredZeros : Fin N → Option (Fin N)

namespace Impl

variable {N : ℕ}

/-- `*std::min_element` over a whole row (equivalently, a fold of
`std::min` starting from `vFill`). -/
def rowMin (N : ℕ) (f : Fin N → ECost) : ECost :=
  (List.finRange N).foldl (fun a c => ECost.emin a (f c)) ECost.inf

/-- The row-reduction pass of `compute` (lines 71–76): subtract the row
minimum from each row unless the minimum is the fill value. -/
def rowReduce (orig : Fin N → Fin N → ECost) : Fin N → Fin N → ECost :=
  fun r c =>
    let h := rowMin N (orig r)
    if h = ECost.inf then orig r c else (orig r c).sub h

/-- The per-column minimum accumulated during the row pass: the minimum of
the row-reduced entries of the column, starting from `vFill`. -/
def colMin (orig : Fin N → Fin N → ECost) (c : Fin N) : ECost :=
  rowMin N (fun r => rowReduce orig r c)

/-- Line 79: columns whose minimum is still `vFill` are treated as `0`. -/
def colAdjust (v : ECost) : ECost := if v = ECost.inf then ECost.fin 0 else v

/-- The fully reduced matrix after the row and column passes of `compute`
(lines 69–81). -/
def reducedCost (orig : Fin N → Fin N → ECost) : Fin N → Fin N → ECost :=
  fun r c => (rowReduce orig r c).sub (colAdjust (colMin orig c))

/-- The zero sets recorded during the scan on lines 84–95: all columns of a
row whose reduced cost is `0`, in column order. -/
def initZeros (cost2 : Fin N → Fin N → ECost) : Fin N → List (Fin N) :=
  fun r => (List.finRange N).filter (fun c => decide (cost2 r c = ECost.fin 0))

/-- One row of the greedy starring scan (lines 84–95): the first zero of the
row whose column is not yet covered gets starred (covering the row blocks any
further star in the same row). -/
def greedyStep (cost2 : Fin N → Fin N → ECost)
    (acc : (Fin N → Bool) × (Fin N → Option (Fin N))) (r : Fin N) :
    (Fin N → Bool) × (Fin N → Option (Fin N)) :=
  match (List.finRange N).find?
      (fun c => decide (cost2 r c = ECost.fin 0) && !acc.1 c) with
  | none => acc
  | some c => (Function.update acc.1 c true, Function.update acc.2 r (some c))

/-- The greedy initial starring (lines 84–95), processing rows in order. -/
def greedyStars (cost2 : Fin N → Fin N → ECost) : Fin N → Option (Fin N) :=
  ((List.finRange N).foldl (greedyStep cost2) (fun _ => false, fun _ => none)).2

/-- Lines 97–103: after the scan all covers are cleared and every column
holding a starred zero is covered. -/
def coverStarCols (stars : Fin N → Option (Fin N)) : Fin N → Bool :=
  fun c => decide (∃ r, stars r = some c)

/-- The state at the end of the preparation phase of `compute`
(lines 69–103), just before the `while` loop. -/
def initState (orig : Fin N → Fin N → ECost) : St N :=
  let cost2 := reducedCost orig
  let stars := greedyStars cost2
  { colCovered := coverStarCols stars
    rowCovered := fun _ => false
    cost := cost2
    zeros := initZeros cost2
    primedZeros := fun r => ⟨0, r.pos⟩
    starredZeros := stars }

/-- `findUncoveredZero` (lines 138–151): the first uncovered row, in row
order, holding a recorded zero (in list order) at an uncovered column. -/
def findUncoveredZero (s : St N) : Option (Fin N × Fin N) :=
  (List.finRange N).findSome? (fun r =>
    if s.rowCovered r then none
    else ((s.zeros r).find? (fun c => !s.colCovered c)).map (fun c => (r, c)))

/-- `findStarredZeroInCol` (lines 192–198): the first row whose starred zero
sits in column `c`. -/
def findStarredZeroInCol (s : St N) (c : Fin N) : Option (Fin N) :=
  (List.finRange N).find? (fun r => decide (s.starredZeros r = some c))

/-- The alternating-path loop of `iterate` (lines 211–216), with fuel; the
accumulator is the pair `rowSequence, colSequence`, and `c` is the column of
the most recently appended primed zero. -/
def buildPath (s : St N) : ℕ → Fin N → List (Fin N) × List (Fin N) →
    Option (List (Fin N) × List (Fin N))
  | 0, _, _ => none
  | fuel + 1, c, acc =>
    match findStarredZeroInCol s c with
    | none => some acc
    | some r =>
      let c' := s.primedZeros r
      buildPath s fuel c' (acc.1 ++ [r], acc.2 ++ [c'])

/-- Lines 219–220: star every `(rowSequence[i], colSequence[i])` pair. -/
def applyStars (stars : Fin N → Option (Fin N)) (rs cs : List (Fin N)) :
    Fin N → Option (Fin N) :=
  (List.zip rs cs).foldl (fun st p => Function.update st p.1 (some p.2)) stars

/-- Lines 218–230: apply the alternating path, clear all covers, and cover
every column holding a starred zero. -/
def augmentState (s : St N) (rs cs : List (Fin N)) : St N :=
  let stars := applyStars s.starredZeros rs cs
  { s with starredZeros := stars
           rowCovered := fun _ => false
           colCovered := coverStarCols stars }

/-- The `while(findUncoveredZero(r, c))` loop of `iterate` (lines 202–238),
with fuel.  Returns the state plus `true` if the augmenting branch ran (the
early `return` on line 231), `false` if the loop exited normally. -/
def innerLoop (N : ℕ) : ℕ → St N → Option (St N × Bool)
  | 0, _ => none
  | fuel + 1, s =>
    match findUncoveredZero s with
    | none => some (s, false)
    | some (r, c) =>
      let s1 : St N := { s with primedZeros := Function.update s.primedZeros r c }
      match s1.starredZeros r with
      | none =>
        (buildPath s1 (N + 1) c ([r], [c])).map
          (fun p => (augmentState s1 p.1 p.2, true))
      | some c0 =>
        innerLoop N fuel
          { s1 with rowCovered := Function.update s1.rowCovered r true
                    colCovered := Function.update s1.colCovered c0 false }

/-- `fillColInds` (lines 129–136): the uncovered columns, in order. -/
def colInds (s : St N) : List (Fin N) :=
  (List.finRange N).filter (fun c => !s.colCovered c)

/-- The boundary rows written by `rebalanceWorkers` (lines 116–125): walking
the rows in order, every time the running count of uncovered rows since the
last boundary reaches `q` the current row becomes a boundary and the count
resets. -/
def rebalanceBounds (N : ℕ) (rowCov : Fin N → Bool) (q : ℕ) : List ℕ :=
  ((List.finRange N).foldl (fun (acc : List ℕ × ℕ) r =>
      if rowCov r then acc
      else if acc.2 = q then (acc.1 ++ [r.val], 0) else (acc.1, acc.2 + 1))
    ([], 0)).1

/-- The number of uncovered rows (line 114). -/
def uncovRowCount (N : ℕ) (rowCov : Fin N → Bool) : ℕ :=
  ((List.finRange N).filter (fun r => !rowCov r)).length

/-- `rebalanceWorkers` (lines 112–127) for `w` workers: `workerRows[0]` is
always `0`, the computed boundaries follow, and the remaining slots (up to
the vector length `w + 1`) are filled with `numRow`.  Note the C++
`std::ceil(uncoveredRows / workers.size())` divides two integers before the
conversion to `double`, so the quota is the floor `u / w`. -/
def rebalanceWorkers (N : ℕ) (rowCov : Fin N → Bool) (w : ℕ) : List ℕ :=
  let u := uncovRowCount N rowCov
  let q := u / w
  let bs := rebalanceBounds N rowCov q
  0 :: (bs ++ List.replicate (w - bs.length) N)

/-- The rows of worker `i`: those in `[workerRows[i], workerRows[i+1])`. -/
def workerRowList (N : ℕ) (ws : List ℕ) (i : ℕ) : List (Fin N) :=
  (List.finRange N).filter
    (fun r => decide (ws.getD i 0 ≤ r.val) && decide (r.val < ws.getD (i + 1) 0))

/-- `findMinUncoveredCostWorker` (lines 161–168): the running minimum over
the uncovered rows of the given range and the uncovered columns `cols`,
starting from `vFill`. -/
def workerMin (s : St N) (cols : List (Fin N)) (rows : List (Fin N)) : ECost :=
  rows.foldl (fun a r =>
    if s.rowCovered r then a
    else cols.foldl (fun b c => if (s.cost r c).blt b then s.cost r c else b) a)
    ECost.inf

/-- `findMinUncoveredCost` (lines 153–159): the minimum of the `w` worker
results. -/
def fmucW (s : St N) (cols : List (Fin N)) (ws : List ℕ) (w : ℕ) : ECost :=
  ((List.range w).map (fun i => workerMin s cols (workerRowList N ws i))).foldl
    ECost.emin ECost.inf

/-- The body of `updateCostsWorker` for one row (lines 178–187): if the row
is covered, add `h` to the whole row and clear its zero list; then subtract
`h` from every uncovered column, appending any column that becomes `0` to the
zero list.  Returns the new cost row and zero list. -/
def rowUpdate (s : St N) (h : ECost) (cols : List (Fin N)) (r : Fin N) :
    (Fin N → ECost) × List (Fin N) :=
  let base : (Fin N → ECost) × List (Fin N) :=
    if s.rowCovered r then (fun c => (s.cost r c).add h, [])
    else (s.cost r, s.zeros r)
  cols.foldl (fun acc c =>
      let v := (acc.1 c).sub h
      (Function.update acc.1 c v, if v = ECost.fin 0 then acc.2 ++ [c] else acc.2))
    base

/-- One worker of `updateCosts` (lines 176–190), processing its rows in
order. -/
def updateWorker (s : St N) (h : ECost) (cols : List (Fin N))
    (rows : List (Fin N)) : St N :=
  rows.foldl (fun st r =>
    let p := rowUpdate st h cols r
    { st with cost := Function.update st.cost r p.1
              zeros := Function.update st.zeros r p.2 }) s

/-- `updateCosts` (lines 170–174) over the `w` worker ranges. -/
def updateCostsW (s : St N) (h : ECost) (cols : List (Fin N)) (ws : List ℕ)
    (w : ℕ) : St N :=
  (List.range w).foldl (fun st i => updateWorker st h cols (workerRowList N ws i)) s

/-- `iterate` (lines 200–250) with `w` workers, together with the flag of
`innerLoop` telling whether the call ended in the augmenting branch. -/
def iterateA (w : ℕ) (s : St N) : Option (St N × Bool) :=
  (innerLoop N (N + 1) s).bind (fun p =>
    if p.2 then some p
    else
      let s1 := p.1
      let cols := colInds s1
      let ws := rebalanceWorkers N s1.rowCovered w
      let h := fmucW s1 cols ws w
      if h = ECost.inf then some ({ s1 with colCovered := fun _ => true }, false)
      else some (updateCostsW s1 h cols ws w, false))

/-- The guard of the outer `while` loop (line 106). -/
def allColsCovered (s : St N) : Bool := (List.finRange N).all (fun c => s.colCovered c)

/-- The outer loop of `compute` (lines 106–107) with fuel, instrumented with
the number of `iterate` calls and the number of augmenting `iterate` calls. -/
def loopA (w : ℕ) : ℕ → St N → ℕ → ℕ → Option (St N × ℕ × ℕ)
  | 0, _, _, _ => none
  | fuel + 1, s, iters, augs =>
    if allColsCovered s then some (s, iters, augs)
    else (iterateA w s).bind (fun p =>
      loopA w fuel p.1 (iters + 1) (augs + if p.2 then 1 else 0))

/-- Fuel sufficient for the outer loop (proved below). -/
def computeFuel (N : ℕ) : ℕ := 2 * N * N + 6 * N + 3

/-- The whole of `compute` (lines 68–109) for a solver constructed with the
given cost matrix, instrumented with iterate/augmentation counts. -/
def computeA (w N : ℕ) (orig : Fin N → Fin N → ECost) : Option (St N × ℕ × ℕ) :=
  loopA w (computeFuel N) (initState orig) 0 0

/-- The returned vector (line 108): `starredZeros`, with `-1` as `none`. -/
def resultOf (s : St N) : List (Option (Fin N)) :=
  (List.finRange N).map s.starredZeros

/-- `compute()`'s return value, when the fuel suffices. -/
def compute (w N : ℕ) (orig : Fin N → Fin N → ECost) :
    Option (List (Option (Fin N))) :=
  (computeA w N orig).map (fun p => resultOf p.1)

/-- The cost matrix of a solver constructed as `Hungarian(rows, cols)` whose
real cells were all set through `setCost` from `f`: padding cells keep the
fill value. -/
def mkCost (rows cols : ℕ) (f : ℕ → ℕ → ECost) :
    Fin (max rows cols) → Fin (max rows cols) → ECost :=
  fun r c => if r.val < rows ∧ c.val < cols then f r.val c.val else ECost.inf

/-! ### Order and minimum lemmas for `ECost` -/

/-- `a ≤ b` as the negation of `b < a` (total on this type). -/
def ble (a b : ECost) : Bool := !(ECost.blt b a)

theorem ble_refl (a : ECost) : ble a a = true := by
  simp [ble, ECost.blt_irrefl]

theorem ble_inf (a : ECost) : ble a ECost.inf = true := by
  cases a <;> simp [ble, ECost.blt]

theorem ble_trans {a b c : ECost} (h1 : ble a b = true) (h2 : ble b c = true) :
    ble a c = true := by
  cases a <;> cases b <;> cases c <;> simp [ble, ECost.blt] at *
  exact le_trans h1 h2

theorem ble_antisymm {a b : ECost} (h1 : ble a b = true) (h2 : ble b a = true) :
    a = b := by
  simp only [ble, Bool.not_eq_true'] at h1 h2
  exact ECost.not_blt_total h2 h1

theorem ble_emin_left (a b : ECost) : ble (ECost.emin a b) a = true := by
  unfold ECost.emin
  split
  · next h =>
    simp only [ble, Bool.not_eq_true']
    cases a <;> cases b <;> simp [ECost.blt] at h ⊢
    exact le_of_lt h
  · exact ble_refl a

theorem ble_emin_right (a b : ECost) : ble (ECost.emin a b) b = true := by
  unfold ECost.emin
  split
  · exact ble_refl b
  · next h =>
    simp [ble, h]

/-- `minSpec cells v`: `v` is the minimum (starting from `vFill`) of the
values in `cells`; only the membership of `cells` matters. -/
def minSpec (cells : List ECost) (v : ECost) : Prop :=
  (v = ECost.inf ∨ v ∈ cells) ∧ ∀ x ∈ cells, ble v x = true

theorem minSpec_unique {cells₁ cells₂ : List ECost} {v₁ v₂ : ECost}
    (hmem : ∀ x, x ∈ cells₁ ↔ x ∈ cells₂)
    (h₁ : minSpec cells₁ v₁) (h₂ : minSpec cells₂ v₂) : v₁ = v₂ := by
  have le₁₂ : ble v₁ v₂ = true := by
    rcases h₂.1 with h | h
    · subst h; exact ble_inf _
    · exact h₁.2 v₂ ((hmem v₂).2 h)
  have le₂₁ : ble v₂ v₁ = true := by
    rcases h₁.1 with h | h
    · subst h; exact ble_inf _
    · exact h₂.2 v₁ ((hmem v₁).1 h)
  exact ble_antisymm le₁₂ le₂₁

theorem foldl_emin_spec (l : List ECost) (init : ECost) :
    ((l.foldl ECost.emin init = init ∨ l.foldl ECost.emin init ∈ l) ∧
      ble (l.foldl ECost.emin init) init = true) ∧
    ∀ x ∈ l, ble (l.foldl ECost.emin init) x = true := by
  induction l generalizing init with
  | nil => exact ⟨⟨Or.inl rfl, ble_refl init⟩, fun x hx => absurd hx (List.not_mem_nil x)⟩
  | cons a t ih =>
    have h := ih (ECost.emin init a)
    constructor
    · constructor
      · rcases h.1.1 with h1 | h1
        · rcases ECost.emin_eq_or init a with h2 | h2
          · rw [List.foldl_cons, h1, h2]; exact Or.inl rfl
          · rw [List.foldl_cons, h1, h2]; exact Or.inr (List.mem_cons_self a t)
        · exact Or.inr (List.mem_cons_of_mem a h1)
      · exact ble_trans h.1.2 (ble_emin_left init a)
    · intro x hx
      rcases List.mem_cons.1 hx with rfl | hx
      · exact ble_trans h.1.2 (ble_emin_right init x)
      · exact h.2 x hx

theorem foldl_emin_inf_minSpec (l : List ECost) :
    minSpec l (l.foldl ECost.emin ECost.inf) := by
  have h := foldl_emin_spec l ECost.inf
  exact ⟨h.1.1, h.2⟩

/-! ### Characterizations of the search helpers -/

theorem findUncoveredZero_eq_some {s : St N} {r c : Fin N}
    (h : findUncoveredZero s = some (r, c)) :
    s.rowCovered r = false ∧ c ∈ s.zeros r ∧ s.colCovered c = false := by
  unfold findUncoveredZero at h
  rw [List.findSome?_eq_some_iff] at h
  obtain ⟨l1, a, l2, -, ha, -⟩ := h
  by_cases hra : s.rowCovered a
  · simp [hra] at ha
  · rw [if_neg (by simpa using hra)] at ha
    cases hfind : (s.zeros a).find? (fun c => !s.colCovered c) with
    | none => rw [hfind] at ha; simp at ha
    | some c' =>
      rw [hfind, Option.map_some'] at ha
      injection ha with h2
      rw [Prod.mk.injEq] at h2
      obtain ⟨rfl, rfl⟩ := h2
      refine ⟨by simpa using hra, List.mem_of_find?_eq_some hfind, ?_⟩
      have := List.find?_some hfind
      simpa using this

theorem findUncoveredZero_eq_none {s : St N} (h : findUncoveredZero s = none)
    {r c : Fin N} (hr : s.rowCovered r = false) (hc : c ∈ s.zeros r) :
    s.colCovered c = true := by
  unfold findUncoveredZero at h
  rw [List.findSome?_eq_none_iff] at h
  have hh := h r (List.mem_finRange r)
  rw [hr] at hh
  simp only [Bool.false_eq_true, if_false, Option.map_eq_none'] at hh
  rw [List.find?_eq_none] at hh
  have := hh c hc
  simpa using this

theorem findStarredZeroInCol_eq_some {s : St N} {c r : Fin N}
    (h : findStarredZeroInCol s c = some r) : s.starredZeros r = some c := by
  have := List.find?_some h
  simpa using this

theorem findStarredZeroInCol_eq_none {s : St N} {c : Fin N}
    (h : findStarredZeroInCol s c = none) : ∀ r, s.starredZeros r ≠ some c := by
  intro r hr
  rw [findStarredZeroInCol, List.find?_eq_none] at h
  exact absurd (by simpa using hr) (by simpa using h r (List.mem_finRange r))

theorem rowMin_minSpec (N : ℕ) (f : Fin N → ECost) :
    minSpec ((List.finRange N).map f) (rowMin N f) := by
  have he : rowMin N f = ((List.finRange N).map f).foldl ECost.emin ECost.inf := by
    rw [rowMin, List.foldl_map]
  rw [he]
  exact foldl_emin_inf_minSpec _

/-- The cost cells a row contributes to the uncovered-minimum search. -/
def rowCells (s : St N) (cols : List (Fin N)) (r : Fin N) : List ECost :=
  if s.rowCovered r then [] else cols.map (s.cost r)

theorem workerMin_eq_foldl (s : St N) (cols rows : List (Fin N)) :
    workerMin s cols rows =
      (rows.flatMap (rowCells s cols)).foldl ECost.emin ECost.inf := by
  rw [workerMin]
  generalize ECost.inf = init
  induction rows generalizing init with
  | nil => rfl
  | cons a t ih =>
    rw [List.foldl_cons, List.flatMap_cons, List.foldl_append, ih]
    congr 1
    by_cases h : s.rowCovered a
    · simp [rowCells, h]
    · simp only [rowCells, h, Bool.false_eq_true, if_false, List.foldl_map]
      rfl

/-- All cells inspected by a sequential minimum-uncovered-cost search. -/
def uncovCells (s : St N) (cols : List (Fin N)) : List ECost :=
  (List.finRange N).flatMap (rowCells s cols)

theorem mem_uncovCells {s : St N} {cols : List (Fin N)} {x : ECost} :
    x ∈ uncovCells s cols ↔
      ∃ r c, s.rowCovered r = false ∧ c ∈ cols ∧ x = s.cost r c := by
  unfold uncovCells rowCells
  constructor
  · intro hx
    obtain ⟨r, -, hx⟩ := List.mem_flatMap.1 hx
    by_cases h : s.rowCovered r
    · simp [h] at hx
    · simp only [h, Bool.false_eq_true, if_false, List.mem_map] at hx
      obtain ⟨c, hc, rfl⟩ := hx
      exact ⟨r, c, by simpa using h, hc, rfl⟩
  · rintro ⟨r, c, hr, hc, rfl⟩
    refine List.mem_flatMap.2 ⟨r, List.mem_finRange r, ?_⟩
    rw [hr]
    simpa using ⟨c, hc, rfl⟩

/-- The sequential (single-range) minimum uncovered cost. -/
def seqMin (s : St N) (cols : List (Fin N)) : ECost :=
  (uncovCells s cols).foldl ECost.emin ECost.inf

theorem seqMin_minSpec (s : St N) (cols : List (Fin N)) :
    minSpec (uncovCells s cols) (seqMin s cols) :=
  foldl_emin_inf_minSpec _

/-- `fmucW` is a minimum of the cells its workers inspect. -/
theorem fmucW_minSpec (s : St N) (cols : List (Fin N)) (ws : List ℕ) (w : ℕ) :
    minSpec ((List.range w).flatMap
      (fun i => (workerRowList N ws i).flatMap (rowCells s cols)))
      (fmucW s cols ws w) := by
  have hspec := foldl_emin_spec
    ((List.range w).map (fun i => workerMin s cols (workerRowList N ws i))) ECost.inf
  constructor
  · rcases hspec.1.1 with h | h
    · exact Or.inl h
    · obtain ⟨i, hi, hwm⟩ := List.mem_map.1 h
      have := (foldl_emin_inf_minSpec ((workerRowList N ws i).flatMap (rowCells s cols))).1
      rw [← workerMin_eq_foldl, hwm] at this
      rcases this with h' | h'
      · exact Or.inl h'
      · exact Or.inr (List.mem_flatMap.2 ⟨i, hi, h'⟩)
  · intro x hx
    obtain ⟨i, hi, hx⟩ := List.mem_flatMap.1 hx
    have h1 : ble (fmucW s cols ws w) (workerMin s cols (workerRowList N ws i)) = true :=
      hspec.2 _ (List.mem_map.2 ⟨i, hi, rfl⟩)
    have h2 := (foldl_emin_inf_minSpec ((workerRowList N ws i).flatMap (rowCells s cols))).2
    rw [← workerMin_eq_foldl] at h2
    exact ble_trans h1 (h2 x hx)

/-! ### The worker-row partition produced by `rebalanceWorkers` -/

/-- One step of the boundary-collecting loop of `rebalanceWorkers`. -/
def rbStep (rowCov : Fin N → Bool) (q : ℕ) (acc : List ℕ × ℕ) (r : Fin N) :
    List ℕ × ℕ :=
  if rowCov r then acc
  else if acc.2 = q then (acc.1 ++ [r.val], 0) else (acc.1, acc.2 + 1)

theorem rebalanceBounds_eq_foldl (rowCov : Fin N → Bool) (q : ℕ) :
    rebalanceBounds N rowCov q =
      ((List.finRange N).foldl (rbStep rowCov q) ([], 0)).1 := rfl

theorem rbFold_spec (rowCov : Fin N → Bool) (q : ℕ) (L : List (Fin N))
    (hL : L.Pairwise (· < ·)) :
    ∀ (lst : List ℕ) (cnt : ℕ),
      (∀ x ∈ lst, ∀ r ∈ L, x < r.val) →
      lst.Pairwise (· < ·) →
      cnt ≤ q →
      (L.foldl (rbStep rowCov q) (lst, cnt)).1.Pairwise (· < ·) ∧
      (∀ x ∈ (L.foldl (rbStep rowCov q) (lst, cnt)).1,
        x ∈ lst ∨ ∃ r ∈ L, x = r.val) ∧
      (L.foldl (rbStep rowCov q) (lst, cnt)).1.length * (q + 1) +
          (L.foldl (rbStep rowCov q) (lst, cnt)).2 ≤
        lst.length * (q + 1) + cnt + (L.filter (fun r => !rowCov r)).length ∧
      (L.foldl (rbStep rowCov q) (lst, cnt)).2 ≤ q := by
  induction L with
  | nil =>
    intro lst cnt _ hsort hcnt
    exact ⟨hsort, fun x hx => Or.inl hx, by simp, hcnt⟩
  | cons a t ih =>
    intro lst cnt hbound hsort hcnt
    rw [List.foldl_cons]
    obtain ⟨ha, ht⟩ := List.pairwise_cons.1 hL
    by_cases hcov : rowCov a
    · have hstep : rbStep rowCov q (lst, cnt) a = (lst, cnt) := by
        simp [rbStep, hcov]
      rw [hstep]
      have hres := ih ht lst cnt
        (fun x hx r hr => hbound x hx r (List.mem_cons_of_mem a hr)) hsort hcnt
      refine ⟨hres.1, ?_, ?_, hres.2.2.2⟩
      · intro x hx
        rcases hres.2.1 x hx with h | ⟨r, hr, hxr⟩
        · exact Or.inl h
        · exact Or.inr ⟨r, List.mem_cons_of_mem a hr, hxr⟩
      · have : ((a :: t).filter (fun r => !rowCov r)).length =
            (t.filter (fun r => !rowCov r)).length := by
          rw [List.filter_cons]
          simp [hcov]
        rw [this]
        exact hres.2.2.1
    · have hflt : ((a :: t).filter (fun r => !rowCov r)).length =
          (t.filter (fun r => !rowCov r)).length + 1 := by
        rw [List.filter_cons]
        simp [hcov]
      by_cases hq : cnt = q
      · have hstep : rbStep rowCov q (lst, cnt) a = (lst ++ [a.val], 0) := by
          simp [rbStep, hcov, hq]
        rw [hstep]
        have hbound' : ∀ x ∈ lst ++ [a.val], ∀ r ∈ t, x < r.val := by
          intro x hx r hr
          rcases List.mem_append.1 hx with h | h
          · exact hbound x h r (List.mem_cons_of_mem a hr)
          · rw [List.mem_singleton.1 h]
            exact ha r hr
        have hsort' : (lst ++ [a.val]).Pairwise (· < ·) := by
          rw [List.pairwise_append]
          exact ⟨hsort, List.pairwise_singleton _ _,
            fun x hx y hy => (List.mem_singleton.1 hy) ▸
              hbound x hx a (List.mem_cons_self a t)⟩
        have hres := ih ht (lst ++ [a.val]) 0 hbound' hsort' (Nat.zero_le q)
        refine ⟨hres.1, ?_, ?_, hres.2.2.2⟩
        · intro x hx
          rcases hres.2.1 x hx with h | ⟨r, hr, hxr⟩
          · rcases List.mem_append.1 h with h' | h'
            · exact Or.inl h'
            · exact Or.inr ⟨a, List.mem_cons_self a t, List.mem_singleton.1 h'⟩
          · exact Or.inr ⟨r, List.mem_cons_of_mem a hr, hxr⟩
        · have := hres.2.2.1
          rw [List.length_append, List.length_singleton] at this
          rw [hflt]
          subst hq
          nlinarith [this]
      · have hstep : rbStep rowCov q (lst, cnt) a = (lst, cnt + 1) := by
          simp [rbStep, hcov, hq]
        rw [hstep]
        have hcnt' : cnt + 1 ≤ q := Nat.succ_le_of_lt (Nat.lt_of_le_of_ne hcnt hq)
        have hres := ih ht lst (cnt + 1)
          (fun x hx r hr => hbound x hx r (List.mem_cons_of_mem a hr)) hsort hcnt'
        refine ⟨hres.1, ?_, ?_, hres.2.2.2⟩
        · intro x hx
          rcases hres.2.1 x hx with h | ⟨r, hr, hxr⟩
          · exact Or.inl h
          · exact Or.inr ⟨r, List.mem_cons_of_mem a hr, hxr⟩
        · rw [hflt]
          have := hres.2.2.1
          omega

theorem rebalanceBounds_spec (rowCov : Fin N → Bool) (q : ℕ) :
    (rebalanceBounds N rowCov q).Pairwise (· < ·) ∧
    (∀ x ∈ rebalanceBounds N rowCov q, x < N) ∧
    (rebalanceBounds N rowCov q).length * (q + 1) ≤ uncovRowCount N rowCov := by
  have h := rbFold_spec rowCov q (List.finRange N) (List.pairwise_lt_finRange N) [] 0
    (by simp) (by simp) (Nat.zero_le q)
  rw [← rebalanceBounds_eq_foldl] at h
  refine ⟨h.1, ?_, ?_⟩
  · intro x hx
    rcases h.2.1 x hx with h' | ⟨r, -, rfl⟩
    · exact absurd h' (List.not_mem_nil x)
    · exact r.isLt
  · have := h.2.2.1
    simp only [List.length_nil, Nat.zero_mul, Nat.zero_add] at this
    unfold uncovRowCount
    omega

theorem rebalanceBounds_length_lt (rowCov : Fin N → Bool) (w : ℕ) (hw : 1 ≤ w) :
    (rebalanceBounds N rowCov (uncovRowCount N rowCov / w)).length < w := by
  have hbs := (rebalanceBounds_spec rowCov (uncovRowCount N rowCov / w)).2.2
  have hdm := Nat.div_add_mod (uncovRowCount N rowCov) w
  have hmod := Nat.mod_lt (uncovRowCount N rowCov) (show 0 < w by omega)
  set u := uncovRowCount N rowCov
  set q := u / w
  set len := (rebalanceBounds N rowCov q).length
  have hu : u < w * (q + 1) := by
    rw [Nat.mul_succ]
    omega
  by_contra hle
  push_neg at hle
  exact absurd (Nat.lt_of_lt_of_le (Nat.lt_of_le_of_lt hbs hu)
    (Nat.mul_le_mul_right _ hle)) (lt_irrefl _)

/-- The tail of the worker-boundary vector (everything after the fixed `0`). -/
def rbTail (N : ℕ) (rowCov : Fin N → Bool) (w : ℕ) : List ℕ :=
  rebalanceBounds N rowCov (uncovRowCount N rowCov / w) ++
    List.replicate (w - (rebalanceBounds N rowCov (uncovRowCount N rowCov / w)).length) N

theorem rebalanceWorkers_eq (rowCov : Fin N → Bool) (w : ℕ) :
    rebalanceWorkers N rowCov w = 0 :: rbTail N rowCov w := rfl

theorem rbTail_length (rowCov : Fin N → Bool) (w : ℕ) (hw : 1 ≤ w) :
    (rbTail N rowCov w).length = w := by
  have := rebalanceBounds_length_lt rowCov w hw
  unfold rbTail
  rw [List.length_append, List.length_replicate]
  omega

theorem rbTail_getD (rowCov : Fin N → Bool) (w : ℕ) (hw : 1 ≤ w)
    {j : ℕ} (hj : j < w) :
    (rbTail N rowCov w).getD j 0 =
      if j < (rebalanceBounds N rowCov (uncovRowCount N rowCov / w)).length then
        (rebalanceBounds N rowCov (uncovRowCount N rowCov / w)).getD j 0
      else N := by
  have hlen := rebalanceBounds_length_lt rowCov w hw
  unfold rbTail
  split
  · next h => rw [List.getD_append _ _ _ _ h]
  · next h =>
    push_neg at h
    rw [List.getD_append_right _ _ _ _ h]
    have hlt : j - (rebalanceBounds N rowCov (uncovRowCount N rowCov / w)).length <
        (List.replicate
          (w - (rebalanceBounds N rowCov (uncovRowCount N rowCov / w)).length) N).length := by
      rw [List.length_replicate]
      omega
    rw [List.getD_eq_getElem _ _ hlt, List.getElem_replicate]

/-- The boundary function `i ↦ workerRows[i]`. -/
def wbound (N : ℕ) (rowCov : Fin N → Bool) (w : ℕ) (i : ℕ) : ℕ :=
  (rebalanceWorkers N rowCov w).getD i 0

theorem wbound_zero (rowCov : Fin N → Bool) (w : ℕ) : wbound N rowCov w 0 = 0 := rfl

theorem wbound_succ (rowCov : Fin N → Bool) (w j : ℕ) :
    wbound N rowCov w (j + 1) = (rbTail N rowCov w).getD j 0 := by
  unfold wbound
  rw [rebalanceWorkers_eq, List.getD_cons_succ]

theorem wbound_last (rowCov : Fin N → Bool) (w : ℕ) (hw : 1 ≤ w) :
    wbound N rowCov w w = N := by
  obtain ⟨ww, rfl⟩ : ∃ ww, w = ww + 1 := ⟨w - 1, by omega⟩
  rw [wbound_succ, rbTail_getD rowCov _ hw (Nat.lt_succ_self ww)]
  have := rebalanceBounds_length_lt rowCov (ww + 1) hw
  rw [if_neg (by omega)]

theorem wbound_step (rowCov : Fin N → Bool) (w : ℕ) (hw : 1 ≤ w)
    {i : ℕ} (hi : i < w) : wbound N rowCov w i ≤ wbound N rowCov w (i + 1) := by
  have hlen := rebalanceBounds_length_lt rowCov w hw
  have hspec := rebalanceBounds_spec rowCov (uncovRowCount N rowCov / w)
  cases i with
  | zero => exact Nat.zero_le _
  | succ j =>
    rw [wbound_succ, wbound_succ,
      rbTail_getD rowCov w hw (show j < w by omega),
      rbTail_getD rowCov w hw (show j + 1 < w from hi)]
    set bs := rebalanceBounds N rowCov (uncovRowCount N rowCov / w) with hbs
    by_cases h1 : j + 1 < bs.length
    · rw [if_pos (by omega), if_pos h1]
      have hget := List.pairwise_iff_getElem.1 hspec.1 j (j + 1)
        (by omega) h1 (Nat.lt_succ_self j)
      rw [List.getD_eq_getElem _ _ (show j < bs.length by omega),
        List.getD_eq_getElem _ _ h1]
      exact Nat.le_of_lt hget
    · rw [if_neg h1]
      by_cases h2 : j < bs.length
      · rw [if_pos h2, List.getD_eq_getElem _ _ h2]
        exact Nat.le_of_lt (hspec.2.1 _ (List.getElem_mem h2))
      · rw [if_neg h2]

theorem wbound_mono (rowCov : Fin N → Bool) (w : ℕ) (hw : 1 ≤ w)
    {i j : ℕ} (hij : i ≤ j) (hj : j ≤ w) :
    wbound N rowCov w i ≤ wbound N rowCov w j := by
  induction j with
  | zero => simp [Nat.le_zero.1 hij]
  | succ k ih =>
    rcases Nat.lt_or_ge i (k + 1) with h | h
    · exact Nat.le_trans (ih (by omega) (by omega))
        (wbound_step rowCov w hw (show k < w by omega))
    · have : i = k + 1 := by omega
      rw [this]

theorem exists_wbound_interval (g : ℕ → ℕ) (w : ℕ)
    (mono : ∀ i, i < w → g i ≤ g (i + 1)) (x : ℕ) (h0 : g 0 ≤ x) (hw : x < g w) :
    ∃ i, i < w ∧ g i ≤ x ∧ x < g (i + 1) := by
  induction w with
  | zero => omega
  | succ v ih =>
    rcases Nat.lt_or_ge x (g v) with h | h
    · obtain ⟨i, hi, h1, h2⟩ := ih (fun i hi => mono i (by omega)) h
      exact ⟨i, by omega, h1, h2⟩
    · exact ⟨v, Nat.lt_succ_self v, h, hw⟩

theorem mem_workerRowList {ws : List ℕ} {i : ℕ} {r : Fin N} :
    r ∈ workerRowList N ws i ↔ ws.getD i 0 ≤ r.val ∧ r.val < ws.getD (i + 1) 0 := by
  unfold workerRowList
  rw [List.mem_filter]
  simp

/-- Every row belongs to exactly one worker range of the rebalanced
partition. -/
theorem workerRowList_partition (rowCov : Fin N → Bool) (w : ℕ) (hw : 1 ≤ w)
    (r : Fin N) :
    ∃! i, i < w ∧ r ∈ workerRowList N (rebalanceWorkers N rowCov w) i := by
  obtain ⟨i, hi, h1, h2⟩ := exists_wbound_interval (wbound N rowCov w) w
    (fun i hi => wbound_step rowCov w hw hi) r.val
    (by rw [wbound_zero]; exact Nat.zero_le _)
    (by rw [wbound_last rowCov w hw]; exact r.isLt)
  refine ⟨i, ⟨hi, mem_workerRowList.2 ⟨h1, h2⟩⟩, ?_⟩
  intro j ⟨hj, hmem⟩
  obtain ⟨hj1, hj2⟩ := mem_workerRowList.1 hmem
  have hj1' : wbound N rowCov w j ≤ r.val := hj1
  have hj2' : r.val < wbound N rowCov w (j + 1) := hj2
  by_contra hne
  rcases Nat.lt_or_ge j i with h | h
  · have := wbound_mono rowCov w hw (show j + 1 ≤ i by omega) (by omega)
    omega
  · have := wbound_mono rowCov w hw (show i + 1 ≤ j by omega) (by omega)
    omega

/-! ### The parallel operations agree with their sequential forms -/

/-- With the rebalanced partition, the parallel minimum search computes the
minimum over all uncovered rows and the given columns. -/
theorem fmucW_eq_seqMin (s : St N) (cols : List (Fin N)) (w : ℕ) (hw : 1 ≤ w) :
    fmucW s cols (rebalanceWorkers N s.rowCovered w) w = seqMin s cols := by
  apply minSpec_unique _ (fmucW_minSpec s cols (rebalanceWorkers N s.rowCovered w) w)
    (seqMin_minSpec s cols)
  intro x
  constructor
  · intro hx
    obtain ⟨i, -, hr⟩ := List.mem_flatMap.1 hx
    obtain ⟨r, -, hc⟩ := List.mem_flatMap.1 hr
    exact List.mem_flatMap.2 ⟨r, List.mem_finRange r, hc⟩
  · intro hx
    obtain ⟨r, -, hc⟩ := List.mem_flatMap.1 hx
    obtain ⟨i, ⟨hi, hmem⟩, -⟩ := workerRowList_partition s.rowCovered w hw r
    exact List.mem_flatMap.2 ⟨i, List.mem_range.2 hi,
      List.mem_flatMap.2 ⟨r, hmem, hc⟩⟩

/-- The sequential form of `updateCosts`: every row is rewritten by
`rowUpdate` against the pre-update state. -/
def seqUpdate (s : St N) (h : ECost) (cols : List (Fin N)) : St N :=
  { s with cost := fun r => (rowUpdate s h cols r).1
           zeros := fun r => (rowUpdate s h cols r).2 }

theorem rowUpdate_congr {s t : St N} (h : ECost) (cols : List (Fin N)) (r : Fin N)
    (hc : s.cost r = t.cost r) (hz : s.zeros r = t.zeros r)
    (hr : s.rowCovered r = t.rowCovered r) :
    rowUpdate s h cols r = rowUpdate t h cols r := by
  unfold rowUpdate
  rw [hc, hz, hr]

/-- One row's worth of `updateCostsWorker`, as a state step. -/
def uwStep (h : ECost) (cols : List (Fin N)) (st : St N) (r : Fin N) : St N :=
  { st with cost := Function.update st.cost r (rowUpdate st h cols r).1
            zeros := Function.update st.zeros r (rowUpdate st h cols r).2 }

theorem updateWorker_eq_foldl (s : St N) (h : ECost) (cols rows : List (Fin N)) :
    updateWorker s h cols rows = rows.foldl (uwStep h cols) s := rfl

theorem updateWorker_frame (s : St N) (h : ECost) (cols rows : List (Fin N)) :
    (updateWorker s h cols rows).rowCovered = s.rowCovered ∧
    (updateWorker s h cols rows).colCovered = s.colCovered ∧
    (updateWorker s h cols rows).primedZeros = s.primedZeros ∧
    (updateWorker s h cols rows).starredZeros = s.starredZeros := by
  rw [updateWorker_eq_foldl]
  induction rows generalizing s with
  | nil => exact ⟨rfl, rfl, rfl, rfl⟩
  | cons a t ih => exact ih (uwStep h cols s a)

theorem updateWorker_not_mem {s : St N} {h : ECost} {cols rows : List (Fin N)}
    {r : Fin N} (hr : r ∉ rows) :
    (updateWorker s h cols rows).cost r = s.cost r ∧
    (updateWorker s h cols rows).zeros r = s.zeros r := by
  rw [updateWorker_eq_foldl]
  induction rows generalizing s with
  | nil => exact ⟨rfl, rfl⟩
  | cons a t ih =>
    have hra : r ≠ a := fun hra => hr (hra ▸ List.mem_cons_self a t)
    have hrt : r ∉ t := fun hrt => hr (List.mem_cons_of_mem a hrt)
    rw [List.foldl_cons]
    obtain ⟨h1, h2⟩ := @ih (uwStep h cols s a) hrt
    rw [h1, h2]
    exact ⟨Function.update_noteq hra _ _, Function.update_noteq hra _ _⟩

theorem updateWorker_mem {s : St N} {h : ECost} {cols rows : List (Fin N)}
    {r : Fin N} (hnd : rows.Nodup) (hr : r ∈ rows) :
    (updateWorker s h cols rows).cost r = (rowUpdate s h cols r).1 ∧
    (updateWorker s h cols rows).zeros r = (rowUpdate s h cols r).2 := by
  rw [updateWorker_eq_foldl]
  induction rows generalizing s with
  | nil => exact absurd hr (List.not_mem_nil r)
  | cons a t ih =>
    rw [List.foldl_cons]
    rcases List.mem_cons.1 hr with rfl | hrt
    · have hat : r ∉ t := (List.nodup_cons.1 hnd).1
      have := @updateWorker_not_mem N (uwStep h cols s r) h cols t r hat
      rw [updateWorker_eq_foldl] at this
      rw [this.1, this.2]
      unfold uwStep
      simp
    · have h1 := @ih (uwStep h cols s a) (List.nodup_cons.1 hnd).2 hrt
      have hra : r ≠ a := fun hra => (List.nodup_cons.1 hnd).1 (hra ▸ hrt)
      rw [h1.1, h1.2]
      have hcongr : rowUpdate (uwStep h cols s a) h cols r = rowUpdate s h cols r :=
        rowUpdate_congr h cols r (Function.update_noteq hra _ _)
          (Function.update_noteq hra _ _) rfl
      rw [hcongr]
      exact ⟨rfl, rfl⟩

theorem workerRowList_nodup (ws : List ℕ) (i : ℕ) : (workerRowList N ws i).Nodup :=
  (List.nodup_finRange N).filter _

theorem updateCostsW_fold_spec (h : ECost) (cols : List (Fin N)) (ws : List ℕ)
    (is : List ℕ)
    (hdisj : is.Pairwise (fun i j => ∀ r : Fin N,
      r ∈ workerRowList N ws i → r ∉ workerRowList N ws j)) :
    ∀ s : St N,
      (∀ r : Fin N, (∃ i ∈ is, r ∈ workerRowList N ws i) →
        ((is.foldl (fun st i => updateWorker st h cols (workerRowList N ws i)) s).cost r
            = (rowUpdate s h cols r).1 ∧
          (is.foldl (fun st i => updateWorker st h cols (workerRowList N ws i)) s).zeros r
            = (rowUpdate s h cols r).2)) ∧
      (∀ r : Fin N, (∀ i ∈ is, r ∉ workerRowList N ws i) →
        ((is.foldl (fun st i => updateWorker st h cols (workerRowList N ws i)) s).cost r
            = s.cost r ∧
          (is.foldl (fun st i => updateWorker st h cols (workerRowList N ws i)) s).zeros r
            = s.zeros r)) ∧
      (is.foldl (fun st i => updateWorker st h cols (workerRowList N ws i)) s).rowCovered
          = s.rowCovered ∧
      (is.foldl (fun st i => updateWorker st h cols (workerRowList N ws i)) s).colCovered
          = s.colCovered ∧
      (is.foldl (fun st i => updateWorker st h cols (workerRowList N ws i)) s).primedZeros
          = s.primedZeros ∧
      (is.foldl (fun st i => updateWorker st h cols (workerRowList N ws i)) s).starredZeros
          = s.starredZeros := by
  induction is with
  | nil =>
    intro s
    exact ⟨fun r hr => absurd hr (by simp), fun r _ => ⟨rfl, rfl⟩, rfl, rfl, rfl, rfl⟩
  | cons i t ih =>
    intro s
    obtain ⟨hit, ht⟩ := List.pairwise_cons.1 hdisj
    have ihs := ih ht (updateWorker s h cols (workerRowList N ws i))
    have hframe := updateWorker_frame s h cols (workerRowList N ws i)
    refine ⟨?_, ?_, ?_, ?_, ?_, ?_⟩
    · intro r hr
      rcases hr with ⟨j, hj, hrj⟩
      rcases List.mem_cons.1 hj with rfl | hjt
      · have hnot : ∀ k ∈ t, r ∉ workerRowList N ws k := fun k hk => hit k hk r hrj
        obtain ⟨e1, e2⟩ := ihs.2.1 r hnot
        rw [List.foldl_cons, e1, e2]
        exact updateWorker_mem (workerRowList_nodup ws j) hrj
      · have hri : r ∉ workerRowList N ws i := by
          intro hmem
          exact (hit j hjt r hmem) hrj
        obtain ⟨e1, e2⟩ := ihs.1 r ⟨j, hjt, hrj⟩
        rw [List.foldl_cons, e1, e2]
        obtain ⟨f1, f2⟩ := @updateWorker_not_mem N s h cols _ r hri
        constructor
        · rw [rowUpdate_congr h cols r f1 f2 (congrFun hframe.1 r)]
        · rw [rowUpdate_congr h cols r f1 f2 (congrFun hframe.1 r)]
    · intro r hr
      have hri : r ∉ workerRowList N ws i := hr i (List.mem_cons_self i t)
      have hnt : ∀ k ∈ t, r ∉ workerRowList N ws k :=
        fun k hk => hr k (List.mem_cons_of_mem i hk)
      obtain ⟨e1, e2⟩ := ihs.2.1 r hnt
      obtain ⟨f1, f2⟩ := @updateWorker_not_mem N s h cols _ r hri
      rw [List.foldl_cons, e1, e2, f1, f2]
      exact ⟨rfl, rfl⟩
    · rw [List.foldl_cons, ihs.2.2.1, hframe.1]
    · rw [List.foldl_cons, ihs.2.2.2.1, hframe.2.1]
    · rw [List.foldl_cons, ihs.2.2.2.2.1, hframe.2.2.1]
    · rw [List.foldl_cons, ihs.2.2.2.2.2, hframe.2.2.2]

/-- With the rebalanced partition, the parallel cost update equals the
sequential per-row update. -/
theorem updateCostsW_eq_seqUpdate (s : St N) (h : ECost) (cols : List (Fin N))
    (w : ℕ) (hw : 1 ≤ w) :
    updateCostsW s h cols (rebalanceWorkers N s.rowCovered w) w =
      seqUpdate s h cols := by
  set ws := rebalanceWorkers N s.rowCovered w with hws
  have hdisj : (List.range w).Pairwise (fun i j => ∀ r : Fin N,
      r ∈ workerRowList N ws i → r ∉ workerRowList N ws j) := by
    refine List.Pairwise.imp_of_mem ?_ (List.pairwise_lt_range w)
    intro i j hi hj hij r hri hrj
    obtain ⟨k, -, huniq⟩ := workerRowList_partition s.rowCovered w hw r
    have hi' : i = k := huniq i ⟨List.mem_range.1 hi, hri⟩
    have hj' : j = k := huniq j ⟨List.mem_range.1 hj, hrj⟩
    omega
  have hspec := updateCostsW_fold_spec h cols ws (List.range w) hdisj s
  have hcov : ∀ r : Fin N, ∃ i ∈ List.range w, r ∈ workerRowList N ws i := by
    intro r
    obtain ⟨i, ⟨hi, hmem⟩, -⟩ := workerRowList_partition s.rowCovered w hw r
    exact ⟨i, List.mem_range.2 hi, hmem⟩
  show (List.range w).foldl (fun st i => updateWorker st h cols (workerRowList N ws i)) s
      = seqUpdate s h cols
  have hc : ((List.range w).foldl
      (fun st i => updateWorker st h cols (workerRowList N ws i)) s).cost
      = fun r => (rowUpdate s h cols r).1 := funext (fun r => (hspec.1 r (hcov r)).1)
  have hz : ((List.range w).foldl
      (fun st i => updateWorker st h cols (workerRowList N ws i)) s).zeros
      = fun r => (rowUpdate s h cols r).2 := funext (fun r => (hspec.1 r (hcov r)).2)
  obtain ⟨g1, g2, g3, g4⟩ := hspec.2.2
  cases hfold : (List.range w).foldl
      (fun st i => updateWorker st h cols (workerRowList N ws i)) s
  rw [hfold] at hc hz g1 g2 g3 g4
  unfold seqUpdate
  cases s
  simp only [St.mk.injEq] at *
  exact ⟨g2, g1, hc, hz, g3, g4⟩

/-! ### Arithmetic lemmas for `ECost` -/

theorem ECost.sub_sub (x : ECost) (a b : ℚ) :
    (x.sub (ECost.fin a)).sub (ECost.fin b) = x.sub (ECost.fin (a + b)) := by
  cases x <;> simp [ECost.sub]
  ring

theorem ECost.sub_add (x : ECost) (a b : ℚ) :
    (x.sub (ECost.fin a)).add (ECost.fin b) = x.sub (ECost.fin (a - b)) := by
  cases x <;> simp [ECost.sub, ECost.add]
  ring

theorem ECost.add_sub_cancel (x : ECost) (q : ℚ) :
    (x.add (ECost.fin q)).sub (ECost.fin q) = x := by
  cases x <;> simp [ECost.sub, ECost.add]

theorem ECost.sub_zero (x : ECost) : x.sub (ECost.fin 0) = x := by
  cases x <;> simp [ECost.sub]

theorem ECost.nonneg_sub_of_ble {x : ECost} {q : ℚ}
    (h : ble (ECost.fin q) x = true) : (x.sub (ECost.fin q)).Nonneg := by
  cases x <;> simp [ECost.sub, ECost.Nonneg, ble, ECost.blt] at *
  linarith

theorem ECost.nonneg_add {x : ECost} {q : ℚ} (hx : x.Nonneg) (hq : 0 ≤ q) :
    (x.add (ECost.fin q)).Nonneg := by
  cases x <;> simp [ECost.add, ECost.Nonneg] at *
  linarith

theorem ECost.add_pos_ne_zero {x : ECost} {q : ℚ} (hx : x.Nonneg) (hq : 0 < q) :
    x.add (ECost.fin q) ≠ ECost.fin 0 := by
  cases x <;> simp [ECost.add, ECost.Nonneg] at *
  intro h
  linarith

theorem ECost.sub_eq_zero_iff {x : ECost} {q : ℚ} :
    x.sub (ECost.fin q) = ECost.fin 0 ↔ x = ECost.fin q := by
  cases x <;> simp [ECost.sub]
  constructor
  · intro h; linarith
  · intro h; linarith

theorem ECost.eq_inf_of_ble_inf {x : ECost} (h : ble ECost.inf x = true) :
    x = ECost.inf := by
  cases x <;> simp [ble, ECost.blt] at *

theorem ECost.exists_pos {x : ECost} (h1 : x.Nonneg) (h2 : x ≠ ECost.fin 0)
    (h3 : x ≠ ECost.inf) : ∃ q : ℚ, x = ECost.fin q ∧ 0 < q := by
  cases x with
  | inf => exact absurd rfl h3
  | fin q =>
    refine ⟨q, rfl, ?_⟩
    rcases lt_or_eq_of_le (show (0 : ℚ) ≤ q from h1) with h | h
    · exact h
    · exact absurd (by rw [← h]) h2

theorem ECost.sub_inf_eq_inf (x : ECost) (q : ℚ) :
    x.sub (ECost.fin q) = ECost.inf ↔ x = ECost.inf := by
  cases x <;> simp [ECost.sub]

theorem ECost.add_inf_eq_inf (x : ECost) (q : ℚ) :
    x.add (ECost.fin q) = ECost.inf ↔ x = ECost.inf := by
  cases x <;> simp [ECost.add]

/-! ### The solver invariants -/

/-- Number of rows holding a starred zero. -/
def starCount (s : St N) : ℕ :=
  (Finset.univ.filter (fun r => s.starredZeros r ≠ none)).card

/-- Number of covered rows. -/
def coveredRowCount (s : St N) : ℕ :=
  (Finset.univ.filter (fun r => s.rowCovered r = true)).card

/-- The invariants that hold at every state the outer loop ever sees,
including the state produced by the infeasible branch. -/
structure CoreInv (s : St N) : Prop where
  matching : ∀ r₁ r₂ c, s.starredZeros r₁ = some c → s.starredZeros r₂ = some c →
    r₁ = r₂
  starZero : ∀ r c, s.starredZeros r = some c → s.cost r c = ECost.fin 0
  zerosIff : ∀ r c, c ∈ s.zeros r ↔ s.cost r c = ECost.fin 0
  nonneg : ∀ r c, (s.cost r c).Nonneg

/-- The full invariant, preserved by every step except the final marking of
all columns in the infeasible branch. -/
structure Inv (s : St N) : Prop where
  core : CoreInv s
  starUncovCov : ∀ r c, s.starredZeros r = some c → s.colCovered c = false →
    s.rowCovered r = true
  covStarUncov : ∀ r c, s.rowCovered r = true → s.starredZeros r = some c →
    s.colCovered c = false
  covHasStar : ∀ r, s.rowCovered r = true → s.starredZeros r ≠ none
  primeZero : ∀ r, s.rowCovered r = true → s.cost r (s.primedZeros r) = ECost.fin 0
  primeUncov : ∀ r, s.rowCovered r = true → s.colCovered (s.primedZeros r) = false
  covColStar : ∀ c, s.colCovered c = true → ∃ r, s.starredZeros r = some c
  rank : ∃ ord : Fin N → ℕ,
    (∀ r, s.rowCovered r = true → ord r < coveredRowCount s) ∧
    (∀ r r₂, s.rowCovered r = true → s.starredZeros r₂ = some (s.primedZeros r) →
      s.rowCovered r₂ = true ∧ ord r₂ < ord r)

/-- The dual-potentials refinement: the current matrix is the original one
shifted by row and column potentials (sentinel cells stay sentinel). -/
def Pot (orig : Fin N → Fin N → ECost) (s : St N) : Prop :=
  ∃ u v : Fin N → ℚ, ∀ r c, s.cost r c = (orig r c).sub (ECost.fin (u r + v c))

theorem starCount_le (s : St N) : starCount s ≤ N := by
  have := Finset.card_filter_le Finset.univ (fun r => s.starredZeros r ≠ none)
  simpa using this

theorem coveredRowCount_le (s : St N) : coveredRowCount s ≤ N := by
  have := Finset.card_filter_le Finset.univ (fun r => s.rowCovered r = true)
  simpa using this

theorem starCount_lt_of_none {s : St N} {r : Fin N}
    (h : s.starredZeros r = none) : starCount s < N := by
  have hsub : Finset.univ.filter (fun r => s.starredZeros r ≠ none) ⊆
      Finset.univ.erase r := by
    intro x hx
    rw [Finset.mem_filter] at hx
    refine Finset.mem_erase.2 ⟨?_, Finset.mem_univ x⟩
    intro hxr
    exact hx.2 (hxr ▸ h)
  calc starCount s ≤ (Finset.univ.erase r).card := Finset.card_le_card hsub
    _ < Finset.univ.card := Finset.card_erase_lt_of_mem (Finset.mem_univ r)
    _ = N := by simp

theorem coveredRowCount_lt_of_uncov {s : St N} {r : Fin N}
    (h : s.rowCovered r = false) : coveredRowCount s < N := by
  have hsub : Finset.univ.filter (fun r => s.rowCovered r = true) ⊆
      Finset.univ.erase r := by
    intro x hx
    rw [Finset.mem_filter] at hx
    refine Finset.mem_erase.2 ⟨?_, Finset.mem_univ x⟩
    intro hxr
    rw [hxr, h] at hx
    exact absurd hx.2 (by simp)
  calc coveredRowCount s ≤ (Finset.univ.erase r).card := Finset.card_le_card hsub
    _ < Finset.univ.card := Finset.card_erase_lt_of_mem (Finset.mem_univ r)
    _ = N := by simp

/-! ### The initial state satisfies the invariants -/

theorem rowMin_ble (N : ℕ) (f : Fin N → ECost) (c : Fin N) :
    ble (rowMin N f) (f c) = true :=
  (rowMin_minSpec N f).2 (f c) (List.mem_map.2 ⟨c, List.mem_finRange c, rfl⟩)

theorem rowReduce_nonneg (orig : Fin N → Fin N → ECost) (r c : Fin N) :
    (rowReduce orig r c).Nonneg := by
  unfold rowReduce
  simp only
  split
  · next h =>
    have := rowMin_ble N (orig r) c
    rw [h] at this
    rw [ECost.eq_inf_of_ble_inf this]
    trivial
  · next h =>
    cases hm : rowMin N (orig r) with
    | inf => exact absurd hm h
    | fin q =>
      have := rowMin_ble N (orig r) c
      rw [hm] at this
      exact ECost.nonneg_sub_of_ble this

theorem colMin_ble (orig : Fin N → Fin N → ECost) (r c : Fin N) :
    ble (colMin orig c) (rowReduce orig r c) = true :=
  rowMin_ble N (fun r => rowReduce orig r c) r

theorem reducedCost_nonneg (orig : Fin N → Fin N → ECost) (r c : Fin N) :
    (reducedCost orig r c).Nonneg := by
  unfold reducedCost colAdjust
  split
  · rw [ECost.sub_zero]
    exact rowReduce_nonneg orig r c
  · next h =>
    cases hm : colMin orig c with
    | inf => exact absurd hm h
    | fin m =>
      have := colMin_ble orig r c
      rw [hm] at this
      exact ECost.nonneg_sub_of_ble this

theorem mem_initZeros (cost2 : Fin N → Fin N → ECost) (r c : Fin N) :
    c ∈ initZeros cost2 r ↔ cost2 r c = ECost.fin 0 := by
  unfold initZeros
  rw [List.mem_filter]
  simp

/-- The invariant carried through the greedy starring fold. -/
def GreedyOk (cost2 : Fin N → Fin N → ECost)
    (acc : (Fin N → Bool) × (Fin N → Option (Fin N))) : Prop :=
  (∀ r c, acc.2 r = some c → cost2 r c = ECost.fin 0) ∧
  (∀ r c, acc.2 r = some c → acc.1 c = true) ∧
  (∀ r₁ r₂ c, acc.2 r₁ = some c → acc.2 r₂ = some c → r₁ = r₂)

theorem greedyStep_eq_some (cost2 : Fin N → Fin N → ECost)
    (acc : (Fin N → Bool) × (Fin N → Option (Fin N))) (r c : Fin N)
    (hfind : (List.finRange N).find?
      (fun c => decide (cost2 r c = ECost.fin 0) && !acc.1 c) = some c) :
    greedyStep cost2 acc r =
      (Function.update acc.1 c true, Function.update acc.2 r (some c)) := by
  unfold greedyStep
  rw [hfind]

theorem greedyStep_eq_none (cost2 : Fin N → Fin N → ECost)
    (acc : (Fin N → Bool) × (Fin N → Option (Fin N))) (r : Fin N)
    (hfind : (List.finRange N).find?
      (fun c => decide (cost2 r c = ECost.fin 0) && !acc.1 c) = none) :
    greedyStep cost2 acc r = acc := by
  unfold greedyStep
  rw [hfind]

theorem greedyStep_ok (cost2 : Fin N → Fin N → ECost)
    (acc : (Fin N → Bool) × (Fin N → Option (Fin N))) (r : Fin N)
    (h : GreedyOk cost2 acc) : GreedyOk cost2 (greedyStep cost2 acc r) := by
  cases hfind : (List.finRange N).find?
      (fun c => decide (cost2 r c = ECost.fin 0) && !acc.1 c) with
  | none => rw [greedyStep_eq_none cost2 acc r hfind]; exact h
  | some c =>
    rw [greedyStep_eq_some cost2 acc r c hfind]
    unfold GreedyOk
    dsimp only
    have hc := List.find?_some hfind
    rw [Bool.and_eq_true] at hc
    have hzero : cost2 r c = ECost.fin 0 := of_decide_eq_true hc.1
    have hcov : acc.1 c = false := by simpa using hc.2
    refine ⟨?_, ?_, ?_⟩
    · intro r' c' h'
      by_cases hr : r' = r
      · subst hr
        rw [Function.update_same] at h'
        injection h' with h'
        rw [← h']
        exact hzero
      · rw [Function.update_noteq hr] at h'
        exact h.1 r' c' h'
    · intro r' c' h'
      by_cases hr : r' = r
      · subst hr
        rw [Function.update_same] at h'
        injection h' with h'
        rw [← h', Function.update_same]
      · rw [Function.update_noteq hr] at h'
        have hold := h.2.1 r' c' h'
        by_cases hcc : c' = c
        · rw [hcc, Function.update_same]
        · rw [Function.update_noteq hcc]
          exact hold
    · intro r₁ r₂ c' h₁ h₂
      by_cases hr₁ : r₁ = r <;> by_cases hr₂ : r₂ = r
      · rw [hr₁, hr₂]
      · subst hr₁
        rw [Function.update_same] at h₁
        injection h₁ with h₁
        rw [Function.update_noteq hr₂] at h₂
        have := h.2.1 r₂ c' h₂
        rw [← h₁, hcov] at this
        exact absurd this (by simp)
      · subst hr₂
        rw [Function.update_same] at h₂
        injection h₂ with h₂
        rw [Function.update_noteq hr₁] at h₁
        have := h.2.1 r₁ c' h₁
        rw [← h₂, hcov] at this
        exact absurd this (by simp)
      · rw [Function.update_noteq hr₁] at h₁
        rw [Function.update_noteq hr₂] at h₂
        exact h.2.2 r₁ r₂ c' h₁ h₂

theorem greedyStars_ok (cost2 : Fin N → Fin N → ECost) :
    (∀ r c, greedyStars cost2 r = some c → cost2 r c = ECost.fin 0) ∧
    (∀ r₁ r₂ c, greedyStars cost2 r₁ = some c → greedyStars cost2 r₂ = some c →
      r₁ = r₂) := by
  have hfold : ∀ (L : List (Fin N)) acc, GreedyOk cost2 acc →
      GreedyOk cost2 (L.foldl (greedyStep cost2) acc) := by
    intro L
    induction L with
    | nil => intro acc h; exact h
    | cons a t ih =>
      intro acc h
      exact ih _ (greedyStep_ok cost2 acc a h)
  have h0 : GreedyOk cost2 ((fun _ => false), (fun _ => none)) :=
    ⟨fun r c h => by exact absurd h (by simp),
      fun r c h => by exact absurd h (by simp),
      fun r₁ r₂ c h₁ h₂ => by exact absurd h₁ (by simp)⟩
  have h := hfold (List.finRange N) _ h0
  exact ⟨fun r c hc => h.1 r c hc, fun r₁ r₂ c h₁ h₂ => h.2.2 r₁ r₂ c h₁ h₂⟩

/-- The finite value of an `ECost` (`0` for the sentinel). -/
def toQ : ECost → ℚ
  | ECost.inf => 0
  | ECost.fin q => q

theorem colAdjust_eq_fin (x : ECost) :
    colAdjust x = ECost.fin (toQ (colAdjust x)) := by
  unfold colAdjust
  cases x <;> simp [toQ]

theorem initState_rowCovered (orig : Fin N → Fin N → ECost) (r : Fin N) :
    (initState orig).rowCovered r = false := rfl

theorem initState_colCovered (orig : Fin N → Fin N → ECost) :
    (initState orig).colCovered = coverStarCols (greedyStars (reducedCost orig)) := rfl

theorem initState_cost (orig : Fin N → Fin N → ECost) :
    (initState orig).cost = reducedCost orig := rfl

theorem initState_zeros (orig : Fin N → Fin N → ECost) :
    (initState orig).zeros = initZeros (reducedCost orig) := rfl

theorem initState_stars (orig : Fin N → Fin N → ECost) :
    (initState orig).starredZeros = greedyStars (reducedCost orig) := rfl

theorem initState_pot (orig : Fin N → Fin N → ECost) : Pot orig (initState orig) := by
  refine ⟨fun r => toQ (rowMin N (orig r)), fun c => toQ (colAdjust (colMin orig c)),
    ?_⟩
  intro r c
  show reducedCost orig r c = _
  unfold reducedCost rowReduce
  simp only
  cases hm : rowMin N (orig r) with
  | inf =>
    have hb := rowMin_ble N (orig r) c
    rw [hm] at hb
    rw [if_pos rfl, ECost.eq_inf_of_ble_inf hb]
    rfl
  | fin q =>
    rw [if_neg (fun hh => ECost.noConfusion hh)]
    conv_lhs => rw [colAdjust_eq_fin (colMin orig c)]
    rw [ECost.sub_sub]
    rfl

theorem initState_inv (orig : Fin N → Fin N → ECost) : Inv (initState orig) := by
  have hg := greedyStars_ok (reducedCost orig)
  refine ⟨⟨?_, ?_, ?_, ?_⟩, ?_, ?_, ?_, ?_, ?_, ?_, ?_⟩
  · exact fun r₁ r₂ c h₁ h₂ => hg.2 r₁ r₂ c h₁ h₂
  · exact fun r c h => hg.1 r c h
  · exact fun r c => mem_initZeros (reducedCost orig) r c
  · exact fun r c => reducedCost_nonneg orig r c
  · intro r c hs hc
    rw [initState_colCovered] at hc
    have : coverStarCols (greedyStars (reducedCost orig)) c = true :=
      decide_eq_true ⟨r, hs⟩
    rw [this] at hc
    exact absurd hc (by simp)
  · intro r c hr
    rw [initState_rowCovered] at hr
    exact absurd hr (by simp)
  · intro r hr
    rw [initState_rowCovered] at hr
    exact absurd hr (by simp)
  · intro r hr
    rw [initState_rowCovered] at hr
    exact absurd hr (by simp)
  · intro r hr
    rw [initState_rowCovered] at hr
    exact absurd hr (by simp)
  · intro c hc
    rw [initState_colCovered] at hc
    exact of_decide_eq_true hc
  · refine ⟨fun _ => 0, ?_, ?_⟩
    · intro r hr
      rw [initState_rowCovered] at hr
      exact absurd hr (by simp)
    · intro r r₂ hr
      rw [initState_rowCovered] at hr
      exact absurd hr (by simp)

/-! ### Effect of one cost update -/

theorem mem_colInds {s : St N} {c : Fin N} :
    c ∈ colInds s ↔ s.colCovered c = false := by
  unfold colInds
  rw [List.mem_filter]
  simp

theorem colInds_nodup (s : St N) : (colInds s).Nodup :=
  (List.nodup_finRange N).filter _

/-- One column's worth of the uncovered-column loop of `updateCostsWorker`. -/
def ruStep (h : ECost) (acc : (Fin N → ECost) × List (Fin N)) (c : Fin N) :
    (Fin N → ECost) × List (Fin N) :=
  (Function.update acc.1 c ((acc.1 c).sub h),
    if (acc.1 c).sub h = ECost.fin 0 then acc.2 ++ [c] else acc.2)

/-- The state of a row before the uncovered-column loop runs. -/
def rowUpdateBase (s : St N) (h : ECost) (r : Fin N) :
    (Fin N → ECost) × List (Fin N) :=
  if s.rowCovered r then (fun c => (s.cost r c).add h, []) else (s.cost r, s.zeros r)

theorem rowUpdate_eq_foldl (s : St N) (h : ECost) (cols : List (Fin N)) (r : Fin N) :
    rowUpdate s h cols r = cols.foldl (ruStep h) (rowUpdateBase s h r) := rfl

theorem ruFold_cost (h : ECost) (cols : List (Fin N)) (hnd : cols.Nodup) :
    ∀ (acc : (Fin N → ECost) × List (Fin N)) (c : Fin N),
      (cols.foldl (ruStep h) acc).1 c =
        if c ∈ cols then (acc.1 c).sub h else acc.1 c := by
  induction cols with
  | nil => intro acc c; simp
  | cons d t ih =>
    intro acc c
    obtain ⟨hd, ht⟩ := List.nodup_cons.1 hnd
    rw [List.foldl_cons, ih ht (ruStep h acc d) c]
    by_cases hcd : c = d
    · subst hcd
      rw [if_neg hd, if_pos (List.mem_cons_self c t)]
      show Function.update acc.1 c ((acc.1 c).sub h) c = _
      rw [Function.update_same]
    · have hv : (ruStep h acc d).1 c = acc.1 c := Function.update_noteq hcd _ _
      rw [hv]
      by_cases hct : c ∈ t
      · rw [if_pos hct, if_pos (List.mem_cons_of_mem d hct)]
      · rw [if_neg hct, if_neg (by
          intro hmem
          rcases List.mem_cons.1 hmem with h' | h'
          · exact hcd h'
          · exact hct h')]

theorem ruFold_zeros (h : ECost) (cols : List (Fin N)) (hnd : cols.Nodup) :
    ∀ (acc : (Fin N → ECost) × List (Fin N)) (c : Fin N),
      (c ∈ (cols.foldl (ruStep h) acc).2 ↔
        c ∈ acc.2 ∨ (c ∈ cols ∧ (acc.1 c).sub h = ECost.fin 0)) := by
  induction cols with
  | nil => intro acc c; simp
  | cons d t ih =>
    intro acc c
    obtain ⟨hd, ht⟩ := List.nodup_cons.1 hnd
    rw [List.foldl_cons, ih ht (ruStep h acc d) c]
    have hsnd : (ruStep h acc d).2 =
        if (acc.1 d).sub h = ECost.fin 0 then acc.2 ++ [d] else acc.2 := rfl
    by_cases hcd : c = d
    · subst hcd
      have hv1 : (ruStep h acc c).1 c = (acc.1 c).sub h := by
        show Function.update acc.1 c ((acc.1 c).sub h) c = _
        rw [Function.update_same]
      rw [hsnd, hv1]
      by_cases hz : (acc.1 c).sub h = ECost.fin 0
      · rw [if_pos hz]
        simp only [List.mem_append, List.mem_singleton]
        constructor
        · rintro (⟨h' | h'⟩ | ⟨-, h'⟩)
          · exact Or.inl h'
          · exact Or.inr ⟨List.mem_cons_self c t, hz⟩
          · exact Or.inr ⟨List.mem_cons_self c t, hz⟩
        · rintro (h' | ⟨-, -⟩)
          · exact Or.inl (Or.inl h')
          · exact Or.inl (Or.inr trivial)
      · rw [if_neg hz]
        constructor
        · rintro (h' | ⟨hct, hzz⟩)
          · exact Or.inl h'
          · exact absurd hct hd
        · rintro (h' | ⟨-, hzz⟩)
          · exact Or.inl h'
          · exact absurd hzz hz
    · have hv : (ruStep h acc d).1 c = acc.1 c := Function.update_noteq hcd _ _
      rw [hsnd, hv]
      have hmemc : c ∈ d :: t ↔ c ∈ t := by
        rw [List.mem_cons]
        exact ⟨fun h' => h'.resolve_left hcd, Or.inr⟩
      by_cases hz : (acc.1 d).sub h = ECost.fin 0
      · rw [if_pos hz]
        simp only [List.mem_append, List.mem_singleton, hmemc]
        constructor
        · rintro (⟨h' | h'⟩ | h')
          · exact Or.inl h'
          · exact absurd h' hcd
          · exact Or.inr h'
        · rintro (h' | h')
          · exact Or.inl (Or.inl h')
          · exact Or.inr h'
      · rw [if_neg hz, hmemc]

theorem seqUpdate_cost (s : St N) (h : ECost) (r c : Fin N) :
    (seqUpdate s h (colInds s)).cost r c =
      if s.rowCovered r = true then
        if s.colCovered c = true then (s.cost r c).add h
        else ((s.cost r c).add h).sub h
      else
        if s.colCovered c = true then s.cost r c
        else (s.cost r c).sub h := by
  show (rowUpdate s h (colInds s) r).1 c = _
  rw [rowUpdate_eq_foldl, ruFold_cost h (colInds s) (colInds_nodup s)]
  unfold rowUpdateBase
  by_cases hr : s.rowCovered r <;> by_cases hc : s.colCovered c
  · rw [if_pos hr, if_pos hr, if_pos hc,
      if_neg (fun hmem => by rw [mem_colInds.1 hmem] at hc; exact Bool.noConfusion hc)]
  · rw [if_pos hr, if_pos hr, if_neg (fun hh => hc (of_eq_true (eq_true hh))),
      if_pos (mem_colInds.2 (by simpa using hc))]
  · rw [if_neg hr, if_neg (fun hh => hr (of_eq_true (eq_true hh))), if_pos hc,
      if_neg (fun hmem => by rw [mem_colInds.1 hmem] at hc; exact Bool.noConfusion hc)]
  · rw [if_neg hr, if_neg (fun hh => hr (of_eq_true (eq_true hh))),
      if_neg (fun hh => hc (of_eq_true (eq_true hh))),
      if_pos (mem_colInds.2 (by simpa using hc))]

theorem seqUpdate_zeros (s : St N) (h : ECost) (r c : Fin N) :
    (c ∈ (seqUpdate s h (colInds s)).zeros r ↔
      if s.rowCovered r = true then
        s.colCovered c = false ∧ ((s.cost r c).add h).sub h = ECost.fin 0
      else
        c ∈ s.zeros r ∨ (s.colCovered c = false ∧ (s.cost r c).sub h = ECost.fin 0)) := by
  show c ∈ (rowUpdate s h (colInds s) r).2 ↔ _
  rw [rowUpdate_eq_foldl, ruFold_zeros h (colInds s) (colInds_nodup s)]
  unfold rowUpdateBase
  by_cases hr : s.rowCovered r
  · rw [if_pos hr, if_pos hr]
    constructor
    · rintro (h' | ⟨hmem, hz⟩)
      · exact absurd h' (List.not_mem_nil c)
      · exact ⟨mem_colInds.1 hmem, hz⟩
    · rintro ⟨hcc, hz⟩
      exact Or.inr ⟨mem_colInds.2 hcc, hz⟩
  · rw [if_neg hr, if_neg (fun hh => hr (of_eq_true (eq_true hh)))]
    constructor
    · rintro (h' | ⟨hmem, hz⟩)
      · exact Or.inl h'
      · exact Or.inr ⟨mem_colInds.1 hmem, hz⟩
    · rintro (h' | ⟨hcc, hz⟩)
      · exact Or.inl h'
      · exact Or.inr ⟨mem_colInds.2 hcc, hz⟩

theorem seqUpdate_rowCovered (s : St N) (h : ECost) :
    (seqUpdate s h (colInds s)).rowCovered = s.rowCovered := rfl

theorem seqUpdate_colCovered (s : St N) (h : ECost) :
    (seqUpdate s h (colInds s)).colCovered = s.colCovered := rfl

theorem seqUpdate_stars (s : St N) (h : ECost) :
    (seqUpdate s h (colInds s)).starredZeros = s.starredZeros := rfl

theorem seqUpdate_primes (s : St N) (h : ECost) :
    (seqUpdate s h (colInds s)).primedZeros = s.primedZeros := rfl

theorem seqMin_attained {s : St N} (hfin : seqMin s (colInds s) ≠ ECost.inf) :
    ∃ r c, s.rowCovered r = false ∧ s.colCovered c = false ∧
      s.cost r c = seqMin s (colInds s) := by
  rcases (seqMin_minSpec s (colInds s)).1 with h | h
  · exact absurd h hfin
  · obtain ⟨r, c, hr, hc, hx⟩ := mem_uncovCells.1 h
    exact ⟨r, c, hr, mem_colInds.1 hc, hx.symm⟩

theorem seqMin_ble {s : St N} {r c : Fin N} (hr : s.rowCovered r = false)
    (hc : s.colCovered c = false) :
    ble (seqMin s (colInds s)) (s.cost r c) = true :=
  (seqMin_minSpec s (colInds s)).2 _
    (mem_uncovCells.2 ⟨r, c, hr, mem_colInds.2 hc, rfl⟩)

theorem noUncovZero {s : St N} (hInv : Inv s)
    (hnz : findUncoveredZero s = none) :
    ∀ r c, s.rowCovered r = false → s.colCovered c = false →
      s.cost r c ≠ ECost.fin 0 := by
  intro r c hr hc h0
  have hmem := (hInv.core.zerosIff r c).2 h0
  have := findUncoveredZero_eq_none hnz hr hmem
  rw [hc] at this
  exact Bool.noConfusion this

theorem seqMin_pos {s : St N} (hInv : Inv s) (hnz : findUncoveredZero s = none)
    (hfin : seqMin s (colInds s) ≠ ECost.inf) :
    ∃ q : ℚ, seqMin s (colInds s) = ECost.fin q ∧ 0 < q := by
  obtain ⟨r, c, hr, hc, hx⟩ := seqMin_attained hfin
  have hnn : (seqMin s (colInds s)).Nonneg := hx ▸ hInv.core.nonneg r c
  have hne : seqMin s (colInds s) ≠ ECost.fin 0 := by
    intro h0
    exact noUncovZero hInv hnz r c hr hc (by rw [hx, h0])
  exact ECost.exists_pos hnn hne hfin

theorem bool_ne_true {b : Bool} (h : b = false) : ¬(b = true) := by
  rw [h]; exact Bool.noConfusion

theorem bool_not_true {b : Bool} (h : ¬(b = true)) : b = false := by
  cases b
  · rfl
  · exact absurd rfl h

theorem seqUpdate_inv {s : St N} (hInv : Inv s) (hnz : findUncoveredZero s = none)
    {q : ℚ} (hq : seqMin s (colInds s) = ECost.fin q) (hq0 : 0 < q) :
    Inv (seqUpdate s (ECost.fin q) (colInds s)) := by
  have hnn := hInv.core.nonneg
  refine ⟨⟨hInv.core.matching, ?_, ?_, ?_⟩, hInv.starUncovCov, hInv.covStarUncov,
    hInv.covHasStar, ?_, hInv.primeUncov, hInv.covColStar, hInv.rank⟩
  · -- starZero
    intro r c hs
    rw [seqUpdate_cost]
    by_cases hr : s.rowCovered r = true
    · have hcu := hInv.covStarUncov r c hr hs
      rw [if_pos hr, if_neg (bool_ne_true hcu), ECost.add_sub_cancel]
      exact hInv.core.starZero r c hs
    · have hcc : s.colCovered c = true := by
        by_contra hcc
        exact hr (hInv.starUncovCov r c hs (bool_not_true hcc))
      rw [if_neg hr, if_pos hcc]
      exact hInv.core.starZero r c hs
  · -- zerosIff
    intro r c
    rw [seqUpdate_zeros, seqUpdate_cost]
    by_cases hr : s.rowCovered r = true
    · rw [if_pos hr, if_pos hr]
      by_cases hcc : s.colCovered c = true
      · rw [if_pos hcc]
        constructor
        · rintro ⟨hf, -⟩
          exact absurd hcc (bool_ne_true hf)
        · intro h0
          exact absurd h0 (ECost.add_pos_ne_zero (hnn r c) hq0)
      · rw [if_neg hcc]
        constructor
        · rintro ⟨-, hz⟩
          exact hz
        · intro h0
          exact ⟨bool_not_true hcc, h0⟩
    · rw [if_neg hr, if_neg hr]
      by_cases hcc : s.colCovered c = true
      · rw [if_pos hcc]
        constructor
        · rintro (hmem | ⟨hf, -⟩)
          · exact (hInv.core.zerosIff r c).1 hmem
          · exact absurd hcc (bool_ne_true hf)
        · intro h0
          exact Or.inl ((hInv.core.zerosIff r c).2 h0)
      · rw [if_neg hcc]
        constructor
        · rintro (hmem | ⟨-, hz⟩)
          · exact absurd ((hInv.core.zerosIff r c).1 hmem)
              (noUncovZero hInv hnz r c (bool_not_true hr) (bool_not_true hcc))
          · exact hz
        · intro h0
          exact Or.inr ⟨bool_not_true hcc, h0⟩
  · -- nonneg
    intro r c
    rw [seqUpdate_cost]
    by_cases hr : s.rowCovered r = true <;> by_cases hcc : s.colCovered c = true
    · rw [if_pos hr, if_pos hcc]
      exact ECost.nonneg_add (hnn r c) (le_of_lt hq0)
    · rw [if_pos hr, if_neg hcc, ECost.add_sub_cancel]
      exact hnn r c
    · rw [if_neg hr, if_pos hcc]
      exact hnn r c
    · rw [if_neg hr, if_neg hcc]
      have := seqMin_ble (bool_not_true hr) (bool_not_true hcc)
      rw [hq] at this
      exact ECost.nonneg_sub_of_ble this
  · -- primeZero
    intro r hr
    have hr' : s.rowCovered r = true := hr
    rw [seqUpdate_primes, seqUpdate_cost]
    have hcu := hInv.primeUncov r hr'
    rw [if_pos hr', if_neg (bool_ne_true hcu), ECost.add_sub_cancel]
    exact hInv.primeZero r hr'

theorem seqUpdate_pot {orig : Fin N → Fin N → ECost} {s : St N} (q : ℚ)
    (hPot : Pot orig s) : Pot orig (seqUpdate s (ECost.fin q) (colInds s)) := by
  obtain ⟨u, v, huv⟩ := hPot
  refine ⟨fun r => if s.rowCovered r = true then u r - q else u r,
    fun c => if s.colCovered c = true then v c else v c + q, ?_⟩
  intro r c
  dsimp only
  rw [seqUpdate_cost, huv r c]
  by_cases hr : s.rowCovered r = true <;> by_cases hcc : s.colCovered c = true
  · rw [if_pos hr, if_pos hcc, if_pos hr, if_pos hcc, ECost.sub_add]
    have : u r + v c - q = u r - q + v c := by ring
    rw [this]
  · rw [if_pos hr, if_neg hcc, if_pos hr, if_neg hcc, ECost.sub_add, ECost.sub_sub]
    have : u r + v c - q + q = u r - q + (v c + q) := by ring
    rw [this]
  · rw [if_neg hr, if_pos hcc, if_neg hr, if_pos hcc]
  · rw [if_neg hr, if_neg hcc, if_neg hr, if_neg hcc, ECost.sub_sub]
    have : u r + v c + q = u r + (v c + q) := by ring
    rw [this]

theorem seqUpdate_new_zero {s : St N}
    {q : ℚ} (hq : seqMin s (colInds s) = ECost.fin q) :
    findUncoveredZero (seqUpdate s (ECost.fin q) (colInds s)) ≠ none := by
  obtain ⟨r, c, hr, hc, hx⟩ := seqMin_attained (by rw [hq]; exact fun h => ECost.noConfusion h)
  intro hnone
  have hz : c ∈ (seqUpdate s (ECost.fin q) (colInds s)).zeros r := by
    rw [seqUpdate_zeros, if_neg (bool_ne_true hr)]
    refine Or.inr ⟨hc, ?_⟩
    rw [hx, hq]
    simp [ECost.sub]
  have := findUncoveredZero_eq_none hnone
    (show (seqUpdate s (ECost.fin q) (colInds s)).rowCovered r = false from hr) hz
  have hcc : (seqUpdate s (ECost.fin q) (colInds s)).colCovered c = false := hc
  rw [hcc] at this
  exact Bool.noConfusion this

/-! ### Effect of the cover-row/uncover-column step -/

/-- The state after lines 203 and 234–236: prime `(r, c)`, cover row `r`,
uncover the column `c0` of the row's starred zero. -/
def coverStep (s : St N) (r c c0 : Fin N) : St N :=
  { s with primedZeros := Function.update s.primedZeros r c
           rowCovered := Function.update s.rowCovered r true
           colCovered := Function.update s.colCovered c0 false }

theorem card_filter_update_true (f : Fin N → Bool) (r : Fin N) (h : f r = false) :
    (Finset.univ.filter (fun x => Function.update f r true x = true)).card =
      (Finset.univ.filter (fun x => f x = true)).card + 1 := by
  have hset : Finset.univ.filter (fun x => Function.update f r true x = true) =
      insert r (Finset.univ.filter (fun x => f x = true)) := by
    ext x
    rw [Finset.mem_filter, Finset.mem_insert, Finset.mem_filter,
      Function.update_apply]
    by_cases hx : x = r
    · simp [hx]
    · simp [hx]
  rw [hset, Finset.card_insert_of_not_mem (by simp [h])]

theorem coverStep_stars (s : St N) (r c c0 : Fin N) :
    (coverStep s r c c0).starredZeros = s.starredZeros := rfl

theorem coverStep_cost (s : St N) (r c c0 : Fin N) :
    (coverStep s r c c0).cost = s.cost := rfl

theorem coverStep_zeros (s : St N) (r c c0 : Fin N) :
    (coverStep s r c c0).zeros = s.zeros := rfl

theorem coverStep_row (s : St N) (r c c0 : Fin N) :
    (coverStep s r c c0).rowCovered = Function.update s.rowCovered r true := rfl

theorem coverStep_col (s : St N) (r c c0 : Fin N) :
    (coverStep s r c c0).colCovered = Function.update s.colCovered c0 false := rfl

theorem coverStep_prime (s : St N) (r c c0 : Fin N) :
    (coverStep s r c c0).primedZeros = Function.update s.primedZeros r c := rfl

theorem coverStep_count {s : St N} {r : Fin N} (c c0 : Fin N)
    (hr : s.rowCovered r = false) :
    coveredRowCount (coverStep s r c c0) = coveredRowCount s + 1 := by
  unfold coveredRowCount
  rw [coverStep_row]
  exact card_filter_update_true s.rowCovered r hr

theorem coverStep_inv {s : St N} {r c c0 : Fin N} (hInv : Inv s)
    (hr : s.rowCovered r = false) (hcz : c ∈ s.zeros r)
    (hcu : s.colCovered c = false) (hstar : s.starredZeros r = some c0) :
    Inv (coverStep s r c c0) := by
  have hc0cov : s.colCovered c0 = true := by
    by_contra hcc
    rw [hInv.starUncovCov r c0 hstar (bool_not_true hcc)] at hr
    exact Bool.noConfusion hr
  have hcc0 : c ≠ c0 := by
    intro he
    rw [he, hc0cov] at hcu
    exact Bool.noConfusion hcu
  refine ⟨⟨hInv.core.matching, hInv.core.starZero, hInv.core.zerosIff,
    hInv.core.nonneg⟩, ?_, ?_, ?_, ?_, ?_, ?_, ?_⟩
  · -- starUncovCov
    intro r' c' hs' hc'
    have hs'' : s.starredZeros r' = some c' := hs'
    rw [coverStep_col] at hc'
    rw [coverStep_row, Function.update_apply]
    by_cases hc0 : c' = c0
    · have : r' = r := hInv.core.matching r' r c' hs'' (by rw [hstar, hc0])
      rw [if_pos this]
    · rw [Function.update_noteq hc0] at hc'
      rw [hInv.starUncovCov r' c' hs'' hc']
      split <;> rfl
  · -- covStarUncov
    intro r' c' hr' hs'
    have hs'' : s.starredZeros r' = some c' := hs'
    rw [coverStep_row] at hr'
    rw [coverStep_col]
    by_cases hrr : r' = r
    · have hce : c' = c0 := by
        rw [hrr, hstar] at hs''
        injection hs'' with hs''
        exact hs''.symm
      rw [hce, Function.update_same]
    · rw [Function.update_noteq hrr] at hr'
      by_cases hc0 : c' = c0
      · rw [hc0, Function.update_same]
      · rw [Function.update_noteq hc0]
        exact hInv.covStarUncov r' c' hr' hs''
  · -- covHasStar
    intro r' hr'
    rw [coverStep_row] at hr'
    rw [coverStep_stars]
    by_cases hrr : r' = r
    · rw [hrr, hstar]
      exact fun hh => Option.noConfusion hh
    · rw [Function.update_noteq hrr] at hr'
      exact hInv.covHasStar r' hr'
  · -- primeZero
    intro r' hr'
    rw [coverStep_row] at hr'
    rw [coverStep_cost, coverStep_prime, Function.update_apply]
    by_cases hrr : r' = r
    · rw [if_pos hrr, hrr]
      exact (hInv.core.zerosIff r c).1 hcz
    · rw [if_neg hrr]
      rw [Function.update_noteq hrr] at hr'
      exact hInv.primeZero r' hr'
  · -- primeUncov
    intro r' hr'
    rw [coverStep_row] at hr'
    rw [coverStep_col, coverStep_prime]
    by_cases hrr : r' = r
    · rw [hrr, Function.update_same, Function.update_noteq hcc0]
      exact hcu
    · rw [Function.update_noteq hrr]
      rw [Function.update_noteq hrr] at hr'
      have hpU := hInv.primeUncov r' hr'
      by_cases hp : s.primedZeros r' = c0
      · rw [hp, Function.update_same]
      · rw [Function.update_noteq hp]
        exact hpU
  · -- covColStar
    intro c' hcov'
    rw [coverStep_col] at hcov'
    rw [coverStep_stars]
    by_cases hc0 : c' = c0
    · rw [hc0, Function.update_same] at hcov'
      exact Bool.noConfusion hcov'
    · rw [Function.update_noteq hc0] at hcov'
      exact hInv.covColStar c' hcov'
  · -- rank
    obtain ⟨ord, hbound, hrel⟩ := hInv.rank
    refine ⟨Function.update ord r (coveredRowCount s), ?_, ?_⟩
    · intro r' hr'
      rw [coverStep_row] at hr'
      rw [coverStep_count c c0 hr, Function.update_apply]
      by_cases hrr : r' = r
      · rw [if_pos hrr]
        omega
      · rw [if_neg hrr]
        rw [Function.update_noteq hrr] at hr'
        have := hbound r' hr'
        omega
    · intro r' r₂ hr' hs₂
      rw [coverStep_row] at hr'
      have hs₂' : s.starredZeros r₂ =
          some (Function.update s.primedZeros r c r') := hs₂
      rw [coverStep_row, coverStep_prime] at *
      by_cases hrr : r' = r
      · rw [hrr, Function.update_same] at hs₂'
        have hr₂cov : s.rowCovered r₂ = true :=
          hInv.starUncovCov r₂ c hs₂' hcu
        have hr₂ne : r₂ ≠ r := by
          intro he
          rw [he, hr] at hr₂cov
          exact Bool.noConfusion hr₂cov
        refine ⟨?_, ?_⟩
        · rw [Function.update_noteq hr₂ne]
          exact hr₂cov
        · rw [Function.update_noteq hr₂ne, hrr, Function.update_same]
          exact hbound r₂ hr₂cov
      · rw [Function.update_noteq hrr] at hr'
        rw [Function.update_noteq hrr] at hs₂'
        by_cases hr₂r : r₂ = r
        · rw [hr₂r, hstar] at hs₂'
          injection hs₂' with hs₂'
          have := hInv.primeUncov r' hr'
          rw [← hs₂', hc0cov] at this
          exact Bool.noConfusion this
        · obtain ⟨hcov₂, hlt⟩ := hrel r' r₂ hr' hs₂'
          refine ⟨?_, ?_⟩
          · rw [Function.update_noteq hr₂r]
            exact hcov₂
          · rw [Function.update_noteq hr₂r, Function.update_noteq hrr]
            exact hlt

/-! ### The augmenting-path branch -/

/-- Priming an uncovered row preserves the invariant. -/
theorem primeStep_inv {s : St N} {r c : Fin N} (hInv : Inv s)
    (hr : s.rowCovered r = false) :
    Inv { s with primedZeros := Function.update s.primedZeros r c } := by
  have hne : ∀ r' : Fin N, s.rowCovered r' = true → r' ≠ r := by
    intro r' hr' he
    rw [he, hr] at hr'
    exact Bool.noConfusion hr'
  refine ⟨⟨hInv.core.matching, hInv.core.starZero, hInv.core.zerosIff,
    hInv.core.nonneg⟩, hInv.starUncovCov, hInv.covStarUncov, hInv.covHasStar,
    ?_, ?_, hInv.covColStar, ?_⟩
  · intro r' hr'
    have hr'' : s.rowCovered r' = true := hr'
    show s.cost r' (Function.update s.primedZeros r c r') = ECost.fin 0
    rw [Function.update_noteq (hne r' hr'')]
    exact hInv.primeZero r' hr''
  · intro r' hr'
    have hr'' : s.rowCovered r' = true := hr'
    show s.colCovered (Function.update s.primedZeros r c r') = false
    rw [Function.update_noteq (hne r' hr'')]
    exact hInv.primeUncov r' hr''
  · obtain ⟨ord, hbound, hrel⟩ := hInv.rank
    refine ⟨ord, hbound, ?_⟩
    intro r' r₂ hr' hs₂
    have hr'' : s.rowCovered r' = true := hr'
    have hs₂' : s.starredZeros r₂ =
        some (Function.update s.primedZeros r c r') := hs₂
    rw [Function.update_noteq (hne r' hr'')] at hs₂'
    exact hrel r' r₂ hr'' hs₂'

/-- The alternating sequences grown by the loop on lines 211–216, starting
from the primed zero `(r₀, c₀)`; the third index is the last column pushed. -/
inductive ChainAcc (s : St N) (r₀ c₀ : Fin N) :
    List (Fin N) → List (Fin N) → Fin N → Prop where
  | base : ChainAcc s r₀ c₀ [r₀] [c₀] c₀
  | snoc {rs cs : List (Fin N)} {c r : Fin N} :
      ChainAcc s r₀ c₀ rs cs c → s.starredZeros r = some c →
      ChainAcc s r₀ c₀ (rs ++ [r]) (cs ++ [s.primedZeros r]) (s.primedZeros r)

theorem buildPath_succ (s : St N) (f : ℕ) (c : Fin N)
    (acc : List (Fin N) × List (Fin N)) :
    buildPath s (f + 1) c acc =
      match findStarredZeroInCol s c with
      | none => some acc
      | some r => buildPath s f (s.primedZeros r)
          (acc.1 ++ [r], acc.2 ++ [s.primedZeros r]) := rfl

/-- The alternating-path loop terminates (with the invariant's ranking) and
returns a chain whose last column holds no starred zero. -/
theorem buildPath_ok {s : St N} {r₀ c₀ : Fin N} (ord : Fin N → ℕ)
    (hrel : ∀ r r₂, s.rowCovered r = true →
      s.starredZeros r₂ = some (s.primedZeros r) →
      s.rowCovered r₂ = true ∧ ord r₂ < ord r) :
    ∀ (fuel : ℕ) (b : ℕ) (c : Fin N) (rs cs : List (Fin N)),
      (∀ r₂, s.starredZeros r₂ = some c → s.rowCovered r₂ = true ∧ ord r₂ < b) →
      b < fuel → ChainAcc s r₀ c₀ rs cs c →
      ∃ RS CS cL, buildPath s fuel c (rs, cs) = some (RS, CS) ∧
        ChainAcc s r₀ c₀ RS CS cL ∧ (∀ r₂, s.starredZeros r₂ ≠ some cL) := by
  intro fuel
  induction fuel with
  | zero => intro b c rs cs hb hlt; omega
  | succ f ih =>
    intro b c rs cs hb hlt hch
    rw [buildPath_succ]
    cases hf : findStarredZeroInCol s c with
    | none =>
      exact ⟨rs, cs, c, rfl, hch, findStarredZeroInCol_eq_none hf⟩
    | some r =>
      have hsr := findStarredZeroInCol_eq_some hf
      obtain ⟨hcov, hord⟩ := hb r hsr
      have hb' : ∀ r₂, s.starredZeros r₂ = some (s.primedZeros r) →
          s.rowCovered r₂ = true ∧ ord r₂ < ord r :=
        fun r₂ h₂ => hrel r r₂ hcov h₂
      obtain ⟨RS, CS, cL, hbp, hch', hlast⟩ := ih (ord r) (s.primedZeros r)
        (rs ++ [r]) (cs ++ [s.primedZeros r]) hb' (by omega)
        (ChainAcc.snoc hch hsr)
      exact ⟨RS, CS, cL, hbp, hch', hlast⟩

/-- Structural facts about the alternating chain, by induction on its
construction. -/
theorem chain_facts {s : St N} {r₀ c₀ : Fin N} (hInv : Inv s)
    (hczero : s.cost r₀ c₀ = ECost.fin 0) (hc0u : s.colCovered c₀ = false) :
    ∀ {rs cs : List (Fin N)} {c : Fin N}, ChainAcc s r₀ c₀ rs cs c →
      rs.length = cs.length ∧ 0 < rs.length ∧
      rs.head? = some r₀ ∧
      (∀ i (hi : i < rs.length), 0 < i → s.rowCovered rs[i] = true) ∧
      (∀ i (hi : i < cs.length) (hi2 : i < rs.length), 0 < i →
        cs[i] = s.primedZeros rs[i]) ∧
      (∀ i (hi : i + 1 < rs.length) (hi2 : i < cs.length),
        s.starredZeros rs[i + 1] = some cs[i]) ∧
      (∀ i (hi : i < rs.length) (hi2 : i < cs.length),
        s.cost rs[i] cs[i] = ECost.fin 0) ∧
      (∀ i (hi : i < cs.length), s.colCovered cs[i] = false) ∧
      (∃ hc : cs.length - 1 < cs.length, cs[cs.length - 1] = c) := by
  intro rs cs c hch
  induction hch with
  | base =>
    refine ⟨rfl, Nat.one_pos, rfl, ?_, ?_, ?_, ?_, ?_, ?_⟩
    · intro i hi hpos
      simp only [List.length_singleton] at hi
      omega
    · intro i hi hi2 hpos
      simp only [List.length_singleton] at hi
      omega
    · intro i hi hi2
      simp only [List.length_singleton] at hi
      omega
    · intro i hi hi2
      simp only [List.length_singleton] at hi
      have : i = 0 := by omega
      subst this
      simpa using hczero
    · intro i hi
      simp only [List.length_singleton] at hi
      have : i = 0 := by omega
      subst this
      simpa using hc0u
    · exact ⟨by simp, by simp⟩
  | @snoc rs cs c r hch hstar ih =>
    obtain ⟨hlen, hpos, hhead, hF4, hF5, hF6, hF7, hF9, hc, hcc⟩ := ih
    have hcuncov : s.colCovered c = false := by
      rw [← hcc]
      exact hF9 (cs.length - 1) hc
    have hcovr : s.rowCovered r = true := hInv.starUncovCov r c hstar hcuncov
    have hlen' : (rs ++ [r]).length = rs.length + 1 := by simp
    have hlenc' : (cs ++ [s.primedZeros r]).length = cs.length + 1 := by simp
    refine ⟨by simp [hlen], by simp, ?_, ?_, ?_, ?_, ?_, ?_, ?_⟩
    · rw [List.head?_append, hhead]
      rfl
    · intro i hi hposi
      rw [hlen'] at hi
      by_cases hil : i < rs.length
      · rw [List.getElem_append_left hil]
        exact hF4 i hil hposi
      · have hie : i = rs.length := by omega
        rw [List.getElem_append_right (by omega)]
        simp only [hie, Nat.sub_self]
        simpa using hcovr
    · intro i hi hi2 hposi
      rw [hlenc'] at hi
      rw [hlen'] at hi2
      by_cases hil : i < cs.length
      · rw [List.getElem_append_left hil,
          List.getElem_append_left (show i < rs.length by omega)]
        exact hF5 i hil (by omega) hposi
      · have hie : i = cs.length := by omega
        rw [List.getElem_append_right (show cs.length ≤ i by omega),
          List.getElem_append_right (show rs.length ≤ i by omega)]
        simp only [hie, Nat.sub_self, hlen, List.getElem_singleton]
    · intro i hi hi2
      rw [hlen'] at hi
      rw [hlenc'] at hi2
      by_cases hil : i + 1 < rs.length
      · rw [List.getElem_append_left hil,
          List.getElem_append_left (show i < cs.length by omega)]
        exact hF6 i hil (by omega)
      · have hie : i + 1 = rs.length := by omega
        rw [List.getElem_append_right (show rs.length ≤ i + 1 by omega),
          List.getElem_append_left (show i < cs.length by omega)]
        simp only [hie, Nat.sub_self, List.getElem_singleton]
        have hic : cs[i] = c := by
          rw [← hcc]
          congr 1
          omega
        rw [hic]
        exact hstar
    · intro i hi hi2
      rw [hlen'] at hi
      rw [hlenc'] at hi2
      by_cases hil : i < rs.length
      · rw [List.getElem_append_left hil,
          List.getElem_append_left (show i < cs.length by omega)]
        exact hF7 i hil (by omega)
      · have hie : i = rs.length := by omega
        rw [List.getElem_append_right (show rs.length ≤ i by omega),
          List.getElem_append_right (show cs.length ≤ i by omega)]
        simp only [hie, Nat.sub_self, hlen, List.getElem_singleton]
        exact hInv.primeZero r hcovr
    · intro i hi
      rw [hlenc'] at hi
      by_cases hil : i < cs.length
      · rw [List.getElem_append_left hil]
        exact hF9 i hil
      · have hie : i = cs.length := by omega
        rw [List.getElem_append_right (show cs.length ≤ i by omega)]
        simp only [hie, Nat.sub_self, List.getElem_singleton]
        exact hInv.primeUncov r hcovr
    · refine ⟨by simp, ?_⟩
      simp only [hlenc', Nat.add_sub_cancel]
      rw [List.getElem_append_right (le_refl _)]
      simp

theorem head?_getElem {l : List (Fin N)} {a : Fin N} (h : l.head? = some a)
    (h0 : 0 < l.length) : l[0] = a := by
  cases l with
  | nil => exact absurd h0 (by simp)
  | cons x t =>
    rw [List.head?_cons] at h
    injection h with h

/-- The rows of a chain are pairwise distinct: the ranking of the invariant
strictly decreases along the starred rows, and the first row is uncovered. -/
theorem chain_nodup {s : St N} {r₀ : Fin N} {rs cs : List (Fin N)}
    (hInv : Inv s) (hr0 : s.rowCovered r₀ = false)
    (hlen : rs.length = cs.length) (hhead : rs.head? = some r₀)
    (hF4 : ∀ i (hi : i < rs.length), 0 < i → s.rowCovered rs[i] = true)
    (hF5 : ∀ i (hi : i < cs.length) (hi2 : i < rs.length), 0 < i →
      cs[i] = s.primedZeros rs[i])
    (hF6 : ∀ i (hi : i + 1 < rs.length) (hi2 : i < cs.length),
      s.starredZeros rs[i + 1] = some cs[i]) :
    rs.Nodup := by
  obtain ⟨ord, hbound, hrel⟩ := hInv.rank
  have hstep : ∀ k (hk1 : 1 ≤ k) (hk : k + 1 < rs.length),
      ord rs[k + 1] < ord rs[k] := by
    intro k hk1 hk
    have hkc : k < cs.length := by omega
    have h6 := hF6 k hk hkc
    rw [hF5 k hkc (by omega) (by omega)] at h6
    exact (hrel rs[k] rs[k + 1] (hF4 k (by omega) (by omega)) h6).2
  have hdec : ∀ j (hj : j < rs.length), ∀ i (h1 : 1 ≤ i) (h2 : i < j),
      ord rs[j] < ord rs[i] := by
    intro j
    induction j with
    | zero => intro hj i h1 h2; omega
    | succ k ih =>
      intro hj i h1 h2
      rcases Nat.lt_or_ge i k with h | h
      · exact Nat.lt_trans (hstep k (by omega) hj) (ih (by omega) i h1 h)
      · obtain rfl : i = k := by omega
        exact hstep i h1 hj
  rw [List.nodup_iff_injective_get]
  intro a b hab
  by_contra hne
  obtain ⟨i, hi⟩ := a
  obtain ⟨j, hj⟩ := b
  rw [List.get_eq_getElem, List.get_eq_getElem] at hab
  simp only at hab
  have hij : i ≠ j := fun he => hne (by simp [he])
  have key : ∀ i j (hi : i < rs.length) (hj : j < rs.length), i < j →
      rs[i] = rs[j] → False := by
    intro i j hi hj hlt heq
    by_cases h0 : i = 0
    · subst h0
      rw [head?_getElem hhead (by omega)] at heq
      have := hF4 j hj (by omega)
      rw [← heq, hr0] at this
      exact Bool.noConfusion this
    · have := hdec j hj i (by omega) hlt
      rw [heq] at this
      omega
  rcases Nat.lt_or_ge i j with h | h
  · exact key i j hi hj h hab
  · exact key j i hj hi (by omega) hab.symm

theorem applyStars_cons (stars : Fin N → Option (Fin N)) (a c : Fin N)
    (t ct : List (Fin N)) :
    applyStars stars (a :: t) (c :: ct) =
      applyStars (Function.update stars a (some c)) t ct := rfl

theorem applyStars_not_mem :
    ∀ (rs : List (Fin N)) (stars : Fin N → Option (Fin N)) (cs : List (Fin N))
      (p : Fin N), p ∉ rs → applyStars stars rs cs p = stars p := by
  intro rs
  induction rs with
  | nil => intro stars cs p _; rfl
  | cons a t ih =>
    intro stars cs p hp
    cases cs with
    | nil => rfl
    | cons c ct =>
      rw [applyStars_cons,
        ih (Function.update stars a (some c)) ct p
          (fun hmem => hp (List.mem_cons_of_mem a hmem)),
        Function.update_noteq (fun he => hp (by rw [he]; exact List.mem_cons_self a t))]

theorem applyStars_getElem :
    ∀ (rs : List (Fin N)) (stars : Fin N → Option (Fin N)) (cs : List (Fin N)),
      rs.Nodup → rs.length = cs.length →
      ∀ i (hi : i < rs.length) (hi2 : i < cs.length),
        applyStars stars rs cs rs[i] = some cs[i] := by
  intro rs
  induction rs with
  | nil =>
    intro stars cs _ _ i hi
    exact absurd hi (by simp)
  | cons a t ih =>
    intro stars cs hnd hlen i hi hi2
    cases cs with
    | nil => exact absurd hlen (by simp)
    | cons c ct =>
      rw [applyStars_cons]
      cases i with
      | zero =>
        simp only [List.getElem_cons_zero]
        rw [applyStars_not_mem t _ ct a (List.nodup_cons.1 hnd).1,
          Function.update_same]
      | succ k =>
        simp only [List.getElem_cons_succ]
        exact ih (Function.update stars a (some c)) ct (List.nodup_cons.1 hnd).2
          (by simpa using hlen) k (by simpa using hi) (by simpa using hi2)

/-- Applying the alternating path preserves the invariant and adds exactly
one starred row. -/
theorem augment_spec {s : St N} {r₀ c₀ cL : Fin N} {RS CS : List (Fin N)}
    (hInv : Inv s)
    (hr0 : s.rowCovered r₀ = false) (hstar0 : s.starredZeros r₀ = none)
    (hczero : s.cost r₀ c₀ = ECost.fin 0) (hc0u : s.colCovered c₀ = false)
    (hch : ChainAcc s r₀ c₀ RS CS cL)
    (hlast : ∀ r₂, s.starredZeros r₂ ≠ some cL) :
    Inv (augmentState s RS CS) ∧
    starCount (augmentState s RS CS) = starCount s + 1 := by
  obtain ⟨hlen, hpos, hhead, hF4, hF5, hF6, hF7, hF9, hcb, hcc⟩ :=
    chain_facts hInv hczero hc0u hch
  have hnd : RS.Nodup := chain_nodup hInv hr0 hlen hhead hF4 hF5 hF6
  have hout : ∀ p, p ∉ RS → applyStars s.starredZeros RS CS p = s.starredZeros p :=
    fun p hp => applyStars_not_mem RS _ CS p hp
  have hin : ∀ i (hi : i < RS.length) (hi2 : i < CS.length),
      applyStars s.starredZeros RS CS RS[i] = some CS[i] :=
    fun i hi hi2 => applyStars_getElem RS _ CS hnd hlen i hi hi2
  have hmemg : ∀ p, p ∈ RS → ∃ i, ∃ hi : i < RS.length, RS[i] = p := by
    intro p hp
    obtain ⟨⟨i, hi⟩, he⟩ := List.mem_iff_get.1 hp
    rw [List.get_eq_getElem] at he
    exact ⟨i, hi, he⟩
  have hr0mem : r₀ ∈ RS := by
    have h0 := head?_getElem hhead hpos
    rw [← h0]
    exact List.getElem_mem hpos
  have hstar_cs : ∀ i (hi : i < CS.length) (p : Fin N),
      s.starredZeros p = some CS[i] → ∃ hn : i + 1 < RS.length, p = RS[i + 1] := by
    intro i hi p hp
    by_cases hn : i + 1 < RS.length
    · exact ⟨hn, hInv.core.matching p RS[i + 1] CS[i] hp (hF6 i hn hi)⟩
    · exfalso
      have hicl : CS[i] = cL := by
        rw [← hcc]
        congr 1
        omega
      exact hlast p (by rw [← hicl]; exact hp)
  have hrs_inj : ∀ i j (hi : i < RS.length) (hj : j < RS.length),
      RS[i] = RS[j] → i = j := by
    intro i j hi hj he
    have hinj : Function.Injective RS.get := List.nodup_iff_injective_get.1 hnd
    have h2 := @hinj ⟨i, hi⟩ ⟨j, hj⟩
      (by rw [List.get_eq_getElem, List.get_eq_getElem]; exact he)
    simpa using congrArg Fin.val h2
  have hcs_inj : ∀ i j (hi : i < CS.length) (hj : j < CS.length),
      CS[i] = CS[j] → i = j := by
    intro i j hi hj he
    by_cases hn : i + 1 < RS.length
    · have h6 := hF6 i hn hi
      rw [he] at h6
      obtain ⟨hn2, hpe⟩ := hstar_cs j hj (RS[i + 1]) h6
      have := hrs_inj (i + 1) (j + 1) hn hn2 hpe
      omega
    · by_cases hm : j + 1 < RS.length
      · have h6 := hF6 j hm hj
        rw [← he] at h6
        obtain ⟨hn2, hpe⟩ := hstar_cs i hi (RS[j + 1]) h6
        have := hrs_inj (j + 1) (i + 1) hm hn2 hpe
        omega
      · omega
  have hmatch : ∀ p₁ p₂ c', applyStars s.starredZeros RS CS p₁ = some c' →
      applyStars s.starredZeros RS CS p₂ = some c' → p₁ = p₂ := by
    intro p₁ p₂ c' h₁ h₂
    by_cases m₁ : p₁ ∈ RS <;> by_cases m₂ : p₂ ∈ RS
    · obtain ⟨i, hi, hie⟩ := hmemg p₁ m₁
      obtain ⟨j, hj, hje⟩ := hmemg p₂ m₂
      rw [← hie, hin i hi (by omega)] at h₁
      rw [← hje, hin j hj (by omega)] at h₂
      injection h₁ with h₁
      injection h₂ with h₂
      have hij := hcs_inj i j (by omega) (by omega) (by rw [h₁, ← h₂])
      rw [← hie, ← hje]
      simp only [hij]
    · obtain ⟨i, hi, hie⟩ := hmemg p₁ m₁
      rw [← hie, hin i hi (by omega)] at h₁
      injection h₁ with h₁
      rw [hout p₂ m₂] at h₂
      obtain ⟨hn, hpe⟩ := hstar_cs i (by omega) p₂ (by rw [h₂, ← h₁])
      exfalso
      apply m₂
      rw [hpe]
      exact List.getElem_mem hn
    · obtain ⟨j, hj, hje⟩ := hmemg p₂ m₂
      rw [← hje, hin j hj (by omega)] at h₂
      injection h₂ with h₂
      rw [hout p₁ m₁] at h₁
      obtain ⟨hn, hpe⟩ := hstar_cs j (by omega) p₁ (by rw [h₁, ← h₂])
      exfalso
      apply m₁
      rw [hpe]
      exact List.getElem_mem hn
    · rw [hout p₁ m₁] at h₁
      rw [hout p₂ m₂] at h₂
      exact hInv.core.matching p₁ p₂ c' h₁ h₂
  have hzero' : ∀ p c', applyStars s.starredZeros RS CS p = some c' →
      s.cost p c' = ECost.fin 0 := by
    intro p c' hp
    by_cases m : p ∈ RS
    · obtain ⟨i, hi, hie⟩ := hmemg p m
      rw [← hie, hin i hi (by omega)] at hp
      injection hp with hp
      rw [← hie, ← hp]
      exact hF7 i hi (by omega)
    · rw [hout p m] at hp
      exact hInv.core.starZero p c' hp
  have hiff : ∀ p, (applyStars s.starredZeros RS CS p ≠ none ↔
      (s.starredZeros p ≠ none ∨ p = r₀)) := by
    intro p
    by_cases m : p ∈ RS
    · obtain ⟨i, hi, hie⟩ := hmemg p m
      constructor
      · intro _
        by_cases h0 : i = 0
        · right
          rw [← hie]
          simp only [h0]
          exact head?_getElem hhead hpos
        · left
          have h6 := hF6 (i - 1) (by omega) (by omega)
          have hre : RS[i - 1 + 1] = p := by
            rw [← hie]
            congr 1
            omega
          rw [hre] at h6
          rw [h6]
          exact fun hh => Option.noConfusion hh
      · intro _
        rw [← hie, hin i hi (by omega)]
        exact fun hh => Option.noConfusion hh
    · rw [hout p m]
      constructor
      · intro h
        exact Or.inl h
      · rintro (h | h)
        · exact h
        · exfalso
          apply m
          rw [h]
          exact hr0mem
  have hcount : starCount (augmentState s RS CS) = starCount s + 1 := by
    show (Finset.univ.filter
      (fun p => applyStars s.starredZeros RS CS p ≠ none)).card = _
    have hset : Finset.univ.filter
        (fun p => applyStars s.starredZeros RS CS p ≠ none) =
        insert r₀ (Finset.univ.filter (fun p => s.starredZeros p ≠ none)) := by
      ext p
      simp only [Finset.mem_filter, Finset.mem_insert, Finset.mem_univ, true_and]
      rw [hiff p]
      constructor
      · rintro (h | h)
        · exact Or.inr h
        · exact Or.inl h
      · rintro (h | h)
        · exact Or.inr h
        · exact Or.inl h
    rw [hset, Finset.card_insert_of_not_mem (by simp [hstar0])]
    rfl
  refine ⟨⟨⟨hmatch, hzero', hInv.core.zerosIff, hInv.core.nonneg⟩,
    ?_, ?_, ?_, ?_, ?_, ?_, ?_⟩, hcount⟩
  · intro p c hs hc
    exfalso
    have hT : coverStarCols (applyStars s.starredZeros RS CS) c = true :=
      decide_eq_true ⟨p, hs⟩
    have hF : coverStarCols (applyStars s.starredZeros RS CS) c = false := hc
    rw [hT] at hF
    exact Bool.noConfusion hF
  · intro p c hp
    exact absurd hp (show ¬((false : Bool) = true) from fun hh => Bool.noConfusion hh)
  · intro p hp
    exact absurd hp (show ¬((false : Bool) = true) from fun hh => Bool.noConfusion hh)
  · intro p hp
    exact absurd hp (show ¬((false : Bool) = true) from fun hh => Bool.noConfusion hh)
  · intro p hp
    exact absurd hp (show ¬((false : Bool) = true) from fun hh => Bool.noConfusion hh)
  · intro c hc
    exact of_decide_eq_true hc
  · refine ⟨fun _ => 0, ?_, ?_⟩
    · intro p hp
      exact absurd hp (show ¬((false : Bool) = true) from fun hh => Bool.noConfusion hh)
    · intro p p₂ hp
      exact absurd hp (show ¬((false : Bool) = true) from fun hh => Bool.noConfusion hh)

/-! ### The inner loop of `iterate` -/

theorem innerLoop_succ (s : St N) (f : ℕ) :
    innerLoop N (f + 1) s =
      match findUncoveredZero s with
      | none => some (s, false)
      | some (r, c) =>
        match s.starredZeros r with
        | none =>
          (buildPath { s with primedZeros := Function.update s.primedZeros r c }
              (N + 1) c ([r], [c])).map
            (fun p => (augmentState
              { s with primedZeros := Function.update s.primedZeros r c } p.1 p.2,
              true))
        | some c0 => innerLoop N f (coverStep s r c c0) := rfl

theorem coverStep_starCount (s : St N) (r c c0 : Fin N) :
    starCount (coverStep s r c c0) = starCount s := rfl

theorem innerLoop_spec :
    ∀ (fuel : ℕ) (s : St N), Inv s → N - coveredRowCount s < fuel →
    ∃ p : St N × Bool, innerLoop N fuel s = some p ∧
      p.1.cost = s.cost ∧ p.1.zeros = s.zeros ∧
      (p.2 = true →
        Inv p.1 ∧ starCount p.1 = starCount s + 1 ∧ starCount s < N ∧
        p.1.rowCovered = (fun _ => false)) ∧
      (p.2 = false →
        Inv p.1 ∧ findUncoveredZero p.1 = none ∧
        p.1.starredZeros = s.starredZeros ∧
        (∀ c, s.colCovered c = false → p.1.colCovered c = false) ∧
        (p.1 = s ∨ coveredRowCount s < coveredRowCount p.1)) := by
  intro fuel
  induction fuel with
  | zero => intro s _ h; omega
  | succ f ih =>
    intro s hInv hfuel
    rw [innerLoop_succ]
    cases hf : findUncoveredZero s with
    | none =>
      refine ⟨(s, false), rfl, rfl, rfl, ?_, ?_⟩
      · intro h
        exact absurd h (by simp)
      · intro _
        exact ⟨hInv, hf, rfl, fun c h => h, Or.inl rfl⟩
    | some rc =>
      obtain ⟨r, c⟩ := rc
      dsimp only
      obtain ⟨hr, hcz, hcu⟩ := findUncoveredZero_eq_some hf
      have hInv1 : Inv { s with primedZeros := Function.update s.primedZeros r c } :=
        primeStep_inv hInv hr
      cases hstar : s.starredZeros r with
      | none =>
        obtain ⟨ord, hbound, hrel⟩ := hInv1.rank
        have hb : ∀ r₂,
            ({ s with primedZeros := Function.update s.primedZeros r c } :
              St N).starredZeros r₂ = some c →
            ({ s with primedZeros := Function.update s.primedZeros r c } :
              St N).rowCovered r₂ = true ∧
            ord r₂ < coveredRowCount s := by
          intro r₂ h₂
          have hcov := hInv1.starUncovCov r₂ c h₂ hcu
          exact ⟨hcov, hbound r₂ hcov⟩
        obtain ⟨RS, CS, cL, hbp, hch, hlast⟩ := buildPath_ok ord hrel (N + 1)
          (coveredRowCount s) c [r] [c] hb
          (Nat.lt_succ_of_le (coveredRowCount_le s)) ChainAcc.base
        obtain ⟨hInvA, hcountA⟩ := augment_spec hInv1 hr hstar
          ((hInv.core.zerosIff r c).1 hcz) hcu hch hlast
        refine ⟨(augmentState
          { s with primedZeros := Function.update s.primedZeros r c } RS CS, true),
          ?_, rfl, rfl, ?_, ?_⟩
        · dsimp only
          rw [hbp]
          rfl
        · intro _
          exact ⟨hInvA, hcountA, starCount_lt_of_none hstar, rfl⟩
        · intro h
          exact absurd h (by simp)
      | some c0 =>
        have hInv2 : Inv (coverStep s r c c0) := coverStep_inv hInv hr hcz hcu hstar
        have hcount2 : coveredRowCount (coverStep s r c c0) = coveredRowCount s + 1 :=
          coverStep_count c c0 hr
        have hlt : coveredRowCount s < N := coveredRowCount_lt_of_uncov hr
        obtain ⟨p, hp, hcost, hzeros, haug, hnaug⟩ := ih (coverStep s r c c0) hInv2
          (by omega)
        refine ⟨p, hp, hcost, hzeros, ?_, ?_⟩
        · intro h
          obtain ⟨h1, h2, h3, h4⟩ := haug h
          exact ⟨h1, by rw [h2, coverStep_starCount], h3, h4⟩
        · intro h
          obtain ⟨h1, h2, h3, h4, h5⟩ := hnaug h
          refine ⟨h1, h2, h3, ?_, ?_⟩
          · intro c' hc'
            apply h4
            rw [coverStep_col]
            by_cases he : c' = c0
            · rw [he, Function.update_same]
            · rw [Function.update_noteq he]
              exact hc'
          · right
            rcases h5 with h5 | h5
            · rw [h5, hcount2]
              omega
            · rw [hcount2] at h5
              omega

/-! ### One call of `iterate` -/

/-- `1` exactly when no uncovered zero exists (used in the termination
measure). -/
def zBit (s : St N) : ℕ := if findUncoveredZero s = none then 1 else 0

/-- Termination measure for the outer loop. -/
def meas (N : ℕ) (s : St N) : ℕ :=
  (N - starCount s) * (2 * N + 4) + 2 * (N - coveredRowCount s) + zBit s

/-- What the infeasible branch (lines 245–248) guarantees about the state it
returns: every column is covered, and at the decision time every uncovered
cell was the sentinel while every covered column held a star. -/
structure InfFacts (s : St N) : Prop where
  allCov : allColsCovered s = true
  exCol : ∃ cc : Fin N → Bool, (∃ c, cc c = false) ∧
    (∀ c, cc c = true → ∃ r, s.starredZeros r = some c) ∧
    (∀ r c, s.rowCovered r = false → cc c = false → s.cost r c = ECost.inf)
  covHasStar : ∀ r, s.rowCovered r = true → s.starredZeros r ≠ none

theorem pot_congr {orig : Fin N → Fin N → ECost} {s t : St N}
    (h : t.cost = s.cost) (hp : Pot orig s) : Pot orig t := by
  obtain ⟨u, v, huv⟩ := hp
  exact ⟨u, v, fun r c => by rw [h]; exact huv r c⟩

theorem coreInv_congr {s t : St N} (hc : t.cost = s.cost) (hz : t.zeros = s.zeros)
    (hs : t.starredZeros = s.starredZeros) (h : CoreInv s) : CoreInv t := by
  refine ⟨?_, ?_, ?_, ?_⟩
  · intro r₁ r₂ c h₁ h₂
    rw [hs] at h₁ h₂
    exact h.matching r₁ r₂ c h₁ h₂
  · intro r c hr
    rw [hs] at hr
    rw [hc]
    exact h.starZero r c hr
  · intro r c
    rw [hz, hc]
    exact h.zerosIff r c
  · intro r c
    rw [hc]
    exact h.nonneg r c

theorem not_allColsCovered {s : St N} (h : allColsCovered s = false) :
    ∃ c, s.colCovered c = false := by
  unfold allColsCovered at h
  by_contra hno
  push_neg at hno
  have : (List.finRange N).all (fun c => s.colCovered c) = true := by
    rw [List.all_eq_true]
    intro c _
    have := hno c
    cases hcc : s.colCovered c
    · exact absurd hcc this
    · rfl
  rw [this] at h
  exact Bool.noConfusion h

theorem zBit_le (s : St N) : zBit s ≤ 1 := by
  unfold zBit
  split <;> omega

theorem iterateA_of_inner_aug {w : ℕ} {s : St N} {p : St N × Bool}
    (hil : innerLoop N (N + 1) s = some p) (hp : p.2 = true) :
    iterateA w s = some p := by
  unfold iterateA
  rw [hil, Option.some_bind, if_pos hp]

theorem iterateA_of_inner_upd {w : ℕ} (hw : 1 ≤ w) {s : St N} {p : St N × Bool}
    (hil : innerLoop N (N + 1) s = some p) (hp : p.2 = false) :
    iterateA w s =
      (if seqMin p.1 (colInds p.1) = ECost.inf
        then some ({ p.1 with colCovered := fun _ => true }, false)
        else some (seqUpdate p.1 (seqMin p.1 (colInds p.1)) (colInds p.1), false)) := by
  unfold iterateA
  rw [hil, Option.some_bind, if_neg (by rw [hp]; exact Bool.noConfusion)]
  dsimp only
  rw [fmucW_eq_seqMin p.1 (colInds p.1) w hw,
    updateCostsW_eq_seqUpdate p.1 _ (colInds p.1) w hw]

theorem iterateA_spec {w : ℕ} (hw : 1 ≤ w) {s : St N} (hInv : Inv s)
    (hcols : allColsCovered s = false) :
    ∃ p : St N × Bool, iterateA w s = some p ∧
      (∀ orig, Pot orig s → Pot orig p.1) ∧
      CoreInv p.1 ∧
      (p.2 = true → starCount p.1 = starCount s + 1) ∧
      (p.2 = false → starCount p.1 = starCount s) ∧
      ((Inv p.1 ∧ meas N p.1 < meas N s) ∨ (p.2 = false ∧ InfFacts p.1)) := by
  obtain ⟨p₀, hil, hcost, hzeros, haug, hnaug⟩ :=
    innerLoop_spec (N + 1) s hInv (by have := coveredRowCount_le s; omega)
  cases hb : p₀.2 with
  | true =>
    obtain ⟨hInvA, hcountA, hstlt, hrowA⟩ := haug hb
    refine ⟨p₀, iterateA_of_inner_aug hil hb, ?_, hInvA.core, ?_, ?_, ?_⟩
    · exact fun orig hp => pot_congr hcost hp
    · intro _
      exact hcountA
    · intro hff
      rw [hb] at hff
      exact absurd hff (by simp)
    · left
      refine ⟨hInvA, ?_⟩
      unfold meas
      have hK : (N - starCount s) * (2 * N + 4) =
          (N - (starCount s + 1)) * (2 * N + 4) + (2 * N + 4) := by
        have he : N - starCount s = (N - (starCount s + 1)) + 1 := by omega
        rw [he, Nat.succ_mul]
      rw [hcountA, hK]
      have hz1 := zBit_le p₀.1
      have hz2 := zBit_le s
      have hc1 : N - coveredRowCount p₀.1 ≤ N := by omega
      omega
  | false =>
    obtain ⟨hInv1, hnz1, hstars1, hcolmono, hprog⟩ := hnaug hb
    by_cases hm : seqMin p₀.1 (colInds p₀.1) = ECost.inf
    · refine ⟨({ p₀.1 with colCovered := fun _ => true }, false),
        by rw [iterateA_of_inner_upd hw hil hb, if_pos hm], ?_, ?_, ?_, ?_, ?_⟩
      · intro orig hp
        exact pot_congr (show ({ p₀.1 with colCovered := fun _ => true } :
          St N).cost = s.cost from hcost) hp
      · exact coreInv_congr (show _ = p₀.1.cost from rfl)
          (show _ = p₀.1.zeros from rfl) (show _ = p₀.1.starredZeros from rfl)
          hInv1.core
      · intro hff
        exact absurd hff (by simp)
      · intro _
        show starCount p₀.1 = starCount s
        unfold starCount
        rw [hstars1]
      · right
        refine ⟨rfl, ?_, ?_, ?_⟩
        · show (List.finRange N).all (fun _ => true) = true
          rw [List.all_eq_true]
          intro c _
          rfl
        · refine ⟨p₀.1.colCovered, ?_, ?_, ?_⟩
          · obtain ⟨c, hc⟩ := not_allColsCovered hcols
            exact ⟨c, hcolmono c hc⟩
          · intro c hc
            exact hInv1.covColStar c hc
          · intro r c hr hc
            show p₀.1.cost r c = ECost.inf
            have hble := (seqMin_minSpec p₀.1 (colInds p₀.1)).2 (p₀.1.cost r c)
              (mem_uncovCells.2 ⟨r, c, hr, mem_colInds.2 hc, rfl⟩)
            rw [hm] at hble
            exact ECost.eq_inf_of_ble_inf hble
        · intro r hr
          exact hInv1.covHasStar r hr
    · obtain ⟨q, hq, hq0⟩ := seqMin_pos hInv1 hnz1 hm
      have hInv' : Inv (seqUpdate p₀.1 (seqMin p₀.1 (colInds p₀.1)) (colInds p₀.1)) := by
        rw [hq]
        exact seqUpdate_inv hInv1 hnz1 hq hq0
      have hnz' : findUncoveredZero
          (seqUpdate p₀.1 (seqMin p₀.1 (colInds p₀.1)) (colInds p₀.1)) ≠ none := by
        rw [hq]
        exact seqUpdate_new_zero hq
      refine ⟨(seqUpdate p₀.1 (seqMin p₀.1 (colInds p₀.1)) (colInds p₀.1), false),
        by rw [iterateA_of_inner_upd hw hil hb, if_neg hm], ?_, hInv'.core, ?_, ?_, ?_⟩
      · intro orig hp
        rw [hq]
        exact seqUpdate_pot q (pot_congr hcost hp)
      · intro hff
        exact absurd hff (by simp)
      · intro _
        show starCount p₀.1 = starCount s
        unfold starCount
        rw [hstars1]
      · left
        refine ⟨hInv', ?_⟩
        unfold meas
        have e1 : starCount (seqUpdate p₀.1 (seqMin p₀.1 (colInds p₀.1))
            (colInds p₀.1)) = starCount s := by
          show starCount p₀.1 = starCount s
          unfold starCount
          rw [hstars1]
        have e2 : coveredRowCount (seqUpdate p₀.1 (seqMin p₀.1 (colInds p₀.1))
            (colInds p₀.1)) = coveredRowCount p₀.1 := rfl
        have e3 : zBit (seqUpdate p₀.1 (seqMin p₀.1 (colInds p₀.1))
            (colInds p₀.1)) = 0 := by
          unfold zBit
          rw [if_neg hnz']
        rw [e1, e2, e3]
        rcases hprog with h5 | h5
        · have hzs : zBit s = 1 := by
            unfold zBit
            rw [if_pos (by rw [← h5]; exact hnz1)]
          rw [h5, hzs]
          omega
        · have hcle := coveredRowCount_le p₀.1
          have hz2 := zBit_le s
          omega

/-! ### The outer loop of `compute` -/

theorem loopA_succ (w f : ℕ) (s : St N) (it au : ℕ) :
    loopA w (f + 1) s it au =
      if allColsCovered s = true then some (s, it, au)
      else (iterateA w s).bind (fun p =>
        loopA w f p.1 (it + 1) (au + if p.2 then 1 else 0)) := rfl

theorem loopA_spec {w : ℕ} (hw : 1 ≤ w) (orig : Fin N → Fin N → ECost) :
    ∀ (m : ℕ) (s : St N), Inv s → Pot orig s → meas N s ≤ m →
    ∀ (fuel : ℕ), m + 2 ≤ fuel → ∀ (it au : ℕ),
    ∃ (sf : St N) (k : ℕ),
      loopA w fuel s it au = some (sf, it + k, au + (starCount sf - starCount s)) ∧
      starCount s ≤ starCount sf ∧
      CoreInv sf ∧ Pot orig sf ∧ allColsCovered sf = true ∧
      (Inv sf ∨ InfFacts sf) := by
  intro m
  induction m using Nat.strong_induction_on with
  | _ m ih =>
    intro s hInv hPot hm fuel hfuel it au
    obtain ⟨f, rfl⟩ : ∃ f, fuel = f + 1 := ⟨fuel - 1, by omega⟩
    rw [loopA_succ]
    by_cases hcols : allColsCovered s = true
    · rw [if_pos hcols]
      exact ⟨s, 0, by rw [Nat.add_zero, Nat.sub_self, Nat.add_zero],
        le_refl _, hInv.core, hPot, hcols, Or.inl hInv⟩
    · rw [if_neg hcols]
      obtain ⟨p, hit, hpot, hcore, hsa, hsn, hdisj⟩ :=
        iterateA_spec hw hInv (bool_not_true hcols)
      rw [hit, Option.some_bind]
      rcases hdisj with ⟨hInvP, hmedec⟩ | ⟨hpf, hInf⟩
      · obtain ⟨sf, k, hrec, hmono, hcore', hpot', hcols', hq⟩ :=
          ih (meas N p.1) (by omega) p.1 hInvP (hpot orig hPot) (le_refl _)
          f (by omega) (it + 1) (au + if p.2 then 1 else 0)
        refine ⟨sf, k + 1, ?_, ?_, hcore', hpot', hcols', hq⟩
        · rw [hrec]
          have harith : it + 1 + k = it + (k + 1) := by omega
          rw [harith]
          cases hb : p.2 with
          | true =>
            have h1 := hsa hb
            have harith2 : au + (if true = true then 1 else 0) +
                (starCount sf - starCount p.1) =
                au + (starCount sf - starCount s) := by
              rw [if_pos rfl]
              omega
            rw [harith2]
          | false =>
            have h1 := hsn hb
            have harith2 : au + (if false = true then 1 else 0) +
                (starCount sf - starCount p.1) =
                au + (starCount sf - starCount s) := by
              rw [if_neg (by simp)]
              omega
            rw [harith2]
        · have h1 : starCount s ≤ starCount p.1 := by
            cases hb : p.2 with
            | true => rw [hsa hb]; omega
            | false => rw [hsn hb]
          omega
      · obtain ⟨f2, rfl⟩ : ∃ f2, f = f2 + 1 := ⟨f - 1, by omega⟩
        have hst := hsn hpf
        refine ⟨p.1, 1, ?_, by rw [hst], hcore, hpot orig hPot, hInf.allCov,
          Or.inr hInf⟩
        rw [hpf, loopA_succ, if_pos hInf.allCov, if_neg (by simp), hst]
        have h0 : starCount s - starCount s = 0 := by omega
        rw [h0]

theorem meas_le (s : St N) : meas N s ≤ 2 * N * N + 6 * N + 1 := by
  unfold meas
  have h1 : N - starCount s ≤ N := by omega
  have h2 : N - coveredRowCount s ≤ N := by omega
  have h3 := zBit_le s
  have h4 := Nat.mul_le_mul_right (2 * N + 4) h1
  have h5 : N * (2 * N + 4) = 2 * N * N + 4 * N := by ring
  omega

/-- `compute` terminates within its fuel and returns a state satisfying the
core invariants, the potentials refinement, and either the full invariant or
the infeasible-exit facts; the augmentation count is the net star gain. -/
theorem computeA_spec {w : ℕ} (hw : 1 ≤ w) (N : ℕ)
    (orig : Fin N → Fin N → ECost) :
    ∃ (sf : St N) (it au : ℕ),
      computeA w N orig = some (sf, it, au) ∧
      au = starCount sf - starCount (initState orig) ∧ au ≤ N ∧
      starCount (initState orig) ≤ starCount sf ∧
      CoreInv sf ∧ Pot orig sf ∧ allColsCovered sf = true ∧
      (Inv sf ∨ InfFacts sf) := by
  obtain ⟨sf, k, hloop, hmono, hcore, hpot, hcols, hq⟩ :=
    loopA_spec hw orig (meas N (initState orig)) (initState orig)
    (initState_inv orig) (initState_pot orig) (le_refl _) (computeFuel N)
    (by have := meas_le (initState orig); unfold computeFuel; omega) 0 0
  refine ⟨sf, k, starCount sf - starCount (initState orig), ?_, rfl, ?_, hmono,
    hcore, hpot, hcols, hq⟩
  · unfold computeA
    rw [hloop, Nat.zero_add, Nat.zero_add]
  · have := starCount_le sf
    omega

/-! ### Worker-count independence -/

theorem iterateA_eq_one {w : ℕ} (hw : 1 ≤ w) (s : St N) :
    iterateA w s = iterateA 1 s := by
  cases hil : innerLoop N (N + 1) s with
  | none =>
    unfold iterateA
    rw [hil]
    rfl
  | some p =>
    cases hb : p.2 with
    | true =>
      rw [iterateA_of_inner_aug hil hb, @iterateA_of_inner_aug N 1 s p hil hb]
    | false =>
      rw [iterateA_of_inner_upd hw hil hb,
        @iterateA_of_inner_upd N 1 (le_refl 1) s p hil hb]

theorem loopA_eq_one {w : ℕ} (hw : 1 ≤ w) :
    ∀ (fuel : ℕ) (s : St N) (it au : ℕ),
      loopA w fuel s it au = loopA 1 fuel s it au := by
  intro fuel
  induction fuel with
  | zero => intro s it au; rfl
  | succ f ih =>
    intro s it au
    rw [loopA_succ, loopA_succ]
    by_cases hcols : allColsCovered s = true
    · rw [if_pos hcols, if_pos hcols]
    · rw [if_neg hcols, if_neg hcols, iterateA_eq_one hw s]
      cases iterateA 1 s with
      | none => rfl
      | some p =>
        rw [Option.some_bind, Option.some_bind, ih]

theorem computeA_eq_one {w : ℕ} (hw : 1 ≤ w) (N : ℕ)
    (orig : Fin N → Fin N → ECost) :
    computeA w N orig = computeA 1 N orig := by
  unfold computeA
  rw [loopA_eq_one hw]

/-! ### The states the outer loop passes through -/

/-- `ReachesA w s₀ t`: starting from `s₀`, some number of guarded `iterate`
calls leads to `t`. -/
inductive ReachesA (w : ℕ) (s₀ : St N) : St N → Prop where
  | refl : ReachesA w s₀ s₀
  | step {t : St N} {p : St N × Bool} : ReachesA w s₀ t →
      allColsCovered t = false → iterateA w t = some p → ReachesA w s₀ p.1

/-- Along the actual run, every state satisfies the core invariants, and all
states but possibly the last satisfy the full invariant. -/
theorem reaches_inv {w : ℕ} (hw : 1 ≤ w) {orig : Fin N → Fin N → ECost}
    {t : St N} (hre : ReachesA w (initState orig) t) :
    CoreInv t ∧ Pot orig t ∧ (Inv t ∨ InfFacts t) := by
  induction hre with
  | refl =>
    exact ⟨(initState_inv orig).core, initState_pot orig,
      Or.inl (initState_inv orig)⟩
  | step hre hcols hit ih =>
    next t p =>
      obtain ⟨hcore, hpot, hq⟩ := ih
      have hInv : Inv t := by
        rcases hq with h | h
        · exact h
        · rw [h.allCov] at hcols
          exact absurd hcols (by simp)
      obtain ⟨p', hit', hpot', hcore', _, _, hdisj⟩ := iterateA_spec hw hInv
        hcols
      rw [hit] at hit'
      injection hit' with hit'
      rw [hit']
      refine ⟨hcore', hpot' orig hpot, ?_⟩
      rcases hdisj with ⟨h1, _⟩ | ⟨_, h2⟩
      · exact Or.inl h1
      · exact Or.inr h2

/-! ### Extraction of the final matching and its optimality -/

theorem stars_perm {s : St N} (hcore : CoreInv s)
    (htot : ∀ r, s.starredZeros r ≠ none) :
    ∃ σ : Equiv.Perm (Fin N), ∀ r, s.starredZeros r = some (σ r) := by
  have hg : ∀ r, ∃ c, s.starredZeros r = some c := by
    intro r
    cases h : s.starredZeros r with
    | none => exact absurd h (htot r)
    | some c => exact ⟨c, rfl⟩
  choose g hgs using hg
  have hginj : Function.Injective g := by
    intro r₁ r₂ he
    exact hcore.matching r₁ r₂ (g r₁) (hgs r₁) (by rw [hgs r₂, he])
  exact ⟨Equiv.ofBijective g (Finite.injective_iff_bijective.1 hginj),
    fun r => hgs r⟩

theorem all_cols_starred_total {s : St N} (_hcore : CoreInv s)
    (hall : ∀ c, ∃ r, s.starredZeros r = some c) :
    ∀ r, s.starredZeros r ≠ none := by
  have hg : ∀ c, ∃ r, s.starredZeros r = some c := hall
  choose g hgs using hg
  have hginj : Function.Injective g := by
    intro c₁ c₂ he
    have h1 := hgs c₁
    rw [he, hgs c₂] at h1
    injection h1 with h1
    exact h1.symm
  have hsurj : Function.Surjective g :=
    (Finite.injective_iff_surjective.1 hginj)
  intro r hr
  obtain ⟨c, hc⟩ := hsurj r
  rw [← hc, hgs c] at hr
  exact Option.noConfusion hr

/-- Dual optimality: the starred permutation of a final state is optimal
among all permutations (on an all-finite matrix). -/
theorem stars_optimal {f : Fin N → Fin N → ℚ} {s : St N}
    (hcore : CoreInv s) (hpot : Pot (fun r c => ECost.fin (f r c)) s)
    (σ : Equiv.Perm (Fin N)) (hσ : ∀ r, s.starredZeros r = some (σ r))
    (π : Equiv.Perm (Fin N)) :
    ∑ r, f r (σ r) ≤ ∑ r, f r (π r) := by
  obtain ⟨u, v, huv⟩ := hpot
  have hval : ∀ r c, s.cost r c = ECost.fin (f r c - (u r + v c)) := by
    intro r c
    rw [huv r c]
    rfl
  have hge : ∀ r c, u r + v c ≤ f r c := by
    intro r c
    have hnn := hcore.nonneg r c
    rw [hval r c] at hnn
    have : (0 : ℚ) ≤ f r c - (u r + v c) := hnn
    linarith
  have heq : ∀ r, f r (σ r) = u r + v (σ r) := by
    intro r
    have hz := hcore.starZero r (σ r) (hσ r)
    rw [hval] at hz
    injection hz with hz
    linarith
  calc ∑ r, f r (σ r) = ∑ r, (u r + v (σ r)) :=
        Finset.sum_congr rfl (fun r _ => heq r)
    _ = ∑ r, u r + ∑ r, v (σ r) := Finset.sum_add_distrib
    _ = ∑ r, u r + ∑ c, v c := by rw [Equiv.sum_comp σ v]
    _ = ∑ r, u r + ∑ r, v (π r) := by rw [← Equiv.sum_comp π v]
    _ = ∑ r, (u r + v (π r)) := Finset.sum_add_distrib.symm
    _ ≤ ∑ r, f r (π r) := Finset.sum_le_sum (fun r _ => hge r (π r))

/-- On a matrix with no sentinel cells, the final state's stars cover every
row (both exit paths of the loop force a full matching). -/
theorem final_total_of_finite {f : Fin N → Fin N → ℚ} {s : St N}
    (hcore : CoreInv s) (hpot : Pot (fun r c => ECost.fin (f r c)) s)
    (hcols : allColsCovered s = true) (hq : Inv s ∨ InfFacts s) :
    ∀ r, s.starredZeros r ≠ none := by
  obtain ⟨u, v, huv⟩ := hpot
  have hfin : ∀ r c, s.cost r c ≠ ECost.inf := by
    intro r c he
    rw [huv r c] at he
    exact ECost.noConfusion (show ECost.fin _ = ECost.inf from he)
  rcases hq with hInv | hInf
  · apply all_cols_starred_total hcore
    intro c
    apply hInv.covColStar c
    unfold allColsCovered at hcols
    rw [List.all_eq_true] at hcols
    exact hcols c (List.mem_finRange c)
  · obtain ⟨cc, ⟨c, hcf⟩, hccstar, hinf⟩ := hInf.exCol
    intro r
    apply hInf.covHasStar r
    by_contra hrc
    exact hfin r c (hinf r c (bool_not_true hrc) hcf)

/-! ### The all-sentinel matrix (no `setCost` call ever made) -/

theorem rowMin_const_inf (N : ℕ) : rowMin N (fun _ => ECost.inf) = ECost.inf := by
  rcases (rowMin_minSpec N (fun _ => ECost.inf)).1 with h | h
  · exact h
  · obtain ⟨c, -, hc⟩ := List.mem_map.1 h
    exact hc.symm

theorem rowReduce_const_inf (N : ℕ) :
    rowReduce (N := N) (fun _ _ => ECost.inf) = fun _ _ => ECost.inf := by
  funext r c
  unfold rowReduce
  dsimp only
  rw [rowMin_const_inf N, if_pos rfl]

theorem reducedCost_const_inf (N : ℕ) :
    reducedCost (N := N) (fun _ _ => ECost.inf) = fun _ _ => ECost.inf := by
  have hrr := rowReduce_const_inf N
  funext r c
  unfold reducedCost colMin
  rw [hrr]
  have hcm : rowMin N (fun r => (fun (_ _ : Fin N) => ECost.inf) r c) =
      ECost.inf := rowMin_const_inf N
  rw [hcm]
  rfl

theorem initState_const_inf (N : ℕ) :
    initState (N := N) (fun _ _ => ECost.inf) =
      { colCovered := fun _ => false, rowCovered := fun _ => false,
        cost := fun _ _ => ECost.inf, zeros := fun _ => [],
        primedZeros := fun r => ⟨0, r.pos⟩, starredZeros := fun _ => none } := by
  have hred := reducedCost_const_inf N
  have hzeros : initZeros (N := N) (fun _ _ => ECost.inf) = fun _ => [] := by
    funext r
    unfold initZeros
    rw [List.filter_eq_nil_iff]
    intro c _
    simp
  have hstars : greedyStars (N := N) (fun _ _ => ECost.inf) = fun _ => none := by
    unfold greedyStars
    have hfold : ∀ (L : List (Fin N)),
        L.foldl (greedyStep (fun _ _ => ECost.inf))
          ((fun _ => false), (fun _ => none)) =
        ((fun _ => false), (fun _ => none)) := by
      intro L
      induction L with
      | nil => rfl
      | cons a t ih =>
        rw [List.foldl_cons, greedyStep_eq_none _ _ _ ?_, ih]
        rw [List.find?_eq_none]
        intro c _
        simp
    rw [hfold]
  have hcov : coverStarCols (N := N) (fun _ => none) = fun _ => false := by
    funext c
    unfold coverStarCols
    simp
  unfold initState
  dsimp only
  rw [hred, hzeros, hstars, hcov]

theorem findUncoveredZero_no_zeros {s : St N} (hz : s.zeros = fun _ => []) :
    findUncoveredZero s = none := by
  unfold findUncoveredZero
  rw [List.findSome?_eq_none_iff]
  intro r _
  rw [hz]
  split <;> rfl

theorem seqMin_const_inf {s : St N} (hc : s.cost = fun _ _ => ECost.inf) :
    seqMin s (colInds s) = ECost.inf := by
  rcases (seqMin_minSpec s (colInds s)).1 with h | h
  · exact h
  · obtain ⟨r, c, -, -, hx⟩ := mem_uncovCells.1 h
    rw [hx, hc]

theorem claim_c10_general (N w : ℕ) (hw : 1 ≤ w) (hN : 1 ≤ N) :
    ∃ sf : St N, computeA w N (fun _ _ => ECost.inf) = some (sf, 1, 0) ∧
      resultOf sf = List.replicate N none := by
  set s0 : St N :=
    { colCovered := fun _ => false, rowCovered := fun _ => false,
      cost := fun _ _ => ECost.inf, zeros := fun _ => [],
      primedZeros := fun r => ⟨0, r.pos⟩, starredZeros := fun _ => none }
    with hs0
  have hinit : initState (N := N) (fun _ _ => ECost.inf) = s0 := initState_const_inf N
  have hnotall : allColsCovered s0 = false := by
    cases hall : allColsCovered s0
    · rfl
    · exfalso
      unfold allColsCovered at hall
      rw [List.all_eq_true] at hall
      have := hall ⟨0, hN⟩ (List.mem_finRange _)
      exact Bool.noConfusion this
  have hil : innerLoop N (N + 1) s0 = some (s0, false) := by
    obtain ⟨f, hf⟩ : ∃ f, N + 1 = f + 1 := ⟨N, rfl⟩
    rw [hf, innerLoop_succ, findUncoveredZero_no_zeros rfl]
  have hit : iterateA w s0 =
      some ({ s0 with colCovered := fun _ => true }, false) := by
    rw [iterateA_of_inner_upd hw hil rfl, if_pos (seqMin_const_inf rfl)]
  obtain ⟨f2, hf2⟩ : ∃ f2, computeFuel N = f2 + 2 :=
    ⟨computeFuel N - 2, by unfold computeFuel; omega⟩
  refine ⟨{ s0 with colCovered := fun _ => true }, ?_, ?_⟩
  · unfold computeA
    rw [hinit, hf2]
    show loopA w (f2 + 1 + 1) s0 0 0 = _
    rw [loopA_succ, if_neg (by rw [hnotall]; exact Bool.noConfusion), hit,
      Option.some_bind, loopA_succ, if_pos ?_]
    · rfl
    · show (List.finRange N).all (fun _ => true) = true
      rw [List.all_eq_true]
      intro c _
      rfl
  · unfold resultOf
    show (List.finRange N).map (fun _ => none) = _
    rw [List.map_const']
    rw [List.length_finRange]

/-! ### The claims -/

/-- Total cost of the starred assignment of a state, over a given matrix
(the sum of `cost[i][result[i]]` for the assigned rows). -/
def matchCost (orig : Fin N → Fin N → ECost) (s : St N) : ECost :=
  (List.finRange N).foldl (fun a r =>
    match s.starredZeros r with
    | some c => a.add (orig r c)
    | none => a) (ECost.fin 0)

/-- C9: after every call to `rebalanceWorkers()` the boundary vector
`workerRows` starts at `workerRows[0] = 0`, has one entry per worker plus the
leading `0`, is non-decreasing, ends at `numRow`, and the row ranges
`[workerRows[i], workerRows[i+1])` are pairwise disjoint and together cover
every row exactly once: each row belongs to exactly one worker's range. -/
theorem claim_c9 (N w : ℕ) (hw : 1 ≤ w) (rowCov : Fin N → Bool) :
    (rebalanceWorkers N rowCov w).length = w + 1 ∧
    (rebalanceWorkers N rowCov w).getD 0 0 = 0 ∧
    (∀ i, i < w → (rebalanceWorkers N rowCov w).getD i 0 ≤
      (rebalanceWorkers N rowCov w).getD (i + 1) 0) ∧
    (rebalanceWorkers N rowCov w).getD w 0 = N ∧
    (∀ r : Fin N, ∃! i, i < w ∧
      r ∈ workerRowList N (rebalanceWorkers N rowCov w) i) := by
  refine ⟨?_, wbound_zero rowCov w, ?_, wbound_last rowCov w hw, ?_⟩
  · rw [rebalanceWorkers_eq, List.length_cons, rbTail_length rowCov w hw]
  · intro i hi
    exact wbound_step rowCov w hw hi
  · intro r
    exact workerRowList_partition rowCov w hw r

/-- Witness for C9 at `N = 3`, `w = 2`, no covered row. -/
theorem claim_c9_witness :
    1 ≤ 2 ∧
    ((rebalanceWorkers 3 (fun _ => false) 2).length = 2 + 1 ∧
    (rebalanceWorkers 3 (fun _ => false) 2).getD 0 0 = 0 ∧
    (∀ i, i < 2 → (rebalanceWorkers 3 (fun _ => false) 2).getD i 0 ≤
      (rebalanceWorkers 3 (fun _ => false) 2).getD (i + 1) 0) ∧
    (rebalanceWorkers 3 (fun _ => false) 2).getD 2 0 = 3 ∧
    (∀ r : Fin 3, ∃! i, i < 2 ∧
      r ∈ workerRowList 3 (rebalanceWorkers 3 (fun _ => false) 2) i)) :=
  ⟨by decide, claim_c9 3 2 (by decide) (fun _ => false)⟩

/-- C8: for every input matrix the run with `w` workers is the run with one
worker: the returned assignment vector is identical, and so in particular is
its total assigned cost. -/
theorem claim_c8 (N w : ℕ) (hw : 1 ≤ w) (orig : Fin N → Fin N → ECost) :
    compute w N orig = compute 1 N orig ∧
    (computeA w N orig).map (fun p => matchCost orig p.1) =
      (computeA 1 N orig).map (fun p => matchCost orig p.1) := by
  have h := computeA_eq_one hw N orig
  constructor
  · unfold compute
    rw [h]
  · rw [h]

/-- Witness for C8 at `N = 2`, `w = 3`. -/
theorem claim_c8_witness :
    1 ≤ 3 ∧
    (compute 3 2 (fun r c => ECost.fin (r.val + c.val)) =
      compute 1 2 (fun r c => ECost.fin (r.val + c.val)) ∧
    (computeA 3 2 (fun r c => ECost.fin (r.val + c.val))).map
        (fun p => matchCost (fun r c => ECost.fin (r.val + c.val)) p.1) =
      (computeA 1 2 (fun r c => ECost.fin (r.val + c.val))).map
        (fun p => matchCost (fun r c => ECost.fin (r.val + c.val)) p.1)) :=
  ⟨by decide, claim_c8 2 3 (by decide) (fun r c => ECost.fin (r.val + c.val))⟩

/-- C3: at every state the outer loop passes through — the state after the
initial greedy starring, and the state after each guarded `iterate()` call,
including the ones that applied an alternating path — the starred assignment
is one-to-one: `starredZeros` gives each row at most one column (it is a
single optional value), and no column is starred in two distinct rows. -/
theorem claim_c3 (N w : ℕ) (hw : 1 ≤ w) (orig : Fin N → Fin N → ECost)
    (t : St N) (hre : ReachesA w (initState orig) t) :
    ∀ r₁ r₂ c, t.starredZeros r₁ = some c → t.starredZeros r₂ = some c →
      r₁ = r₂ :=
  (reaches_inv hw hre).1.matching

/-- Witness for C3 at the initial state of a concrete 2×2 instance. -/
theorem claim_c3_witness :
    1 ≤ 1 ∧
    (∀ r₁ r₂ c, (initState (fun r c : Fin 2 => ECost.fin (r.val * c.val))).starredZeros r₁ = some c →
      (initState (fun r c : Fin 2 => ECost.fin (r.val * c.val))).starredZeros r₂ = some c →
      r₁ = r₂) :=
  ⟨by decide, claim_c3 2 1 (by decide) (fun r c => ECost.fin (r.val * c.val))
    (initState (fun r c => ECost.fin (r.val * c.val))) ReachesA.refl⟩

/-- C4: at every state the outer loop passes through after the initial scan,
each row's incrementally maintained list `zeros[row]` holds exactly the
columns whose current reduced cost in that row is zero — no missing zero
column and no stale entry, for covered and uncovered rows alike, including
after every cost update. -/
theorem claim_c4 (N w : ℕ) (hw : 1 ≤ w) (orig : Fin N → Fin N → ECost)
    (t : St N) (hre : ReachesA w (initState orig) t) :
    ∀ r c, c ∈ t.zeros r ↔ t.cost r c = ECost.fin 0 :=
  (reaches_inv hw hre).1.zerosIff

/-- Witness for C4 at the initial state of a concrete 2×2 instance. -/
theorem claim_c4_witness :
    1 ≤ 1 ∧
    (∀ r c, c ∈ (initState (fun r c : Fin 2 => ECost.fin (r.val + 2 * c.val))).zeros r ↔
      (initState (fun r c : Fin 2 => ECost.fin (r.val + 2 * c.val))).cost r c = ECost.fin 0) :=
  ⟨by decide, claim_c4 2 1 (by decide) (fun r c => ECost.fin (r.val + 2 * c.val))
    (initState (fun r c => ECost.fin (r.val + 2 * c.val))) ReachesA.refl⟩

/-- C2: every augmenting `iterate()` call (the alternating-path branch)
increases the number of rows holding a starred zero by exactly one, and the
outer loop of `compute()` terminates with at most `N` augmentations among its
finitely many `iterate()` calls. -/
theorem claim_c2 (N w : ℕ) (hw : 1 ≤ w) (orig : Fin N → Fin N → ECost) :
    (∀ t : St N, ReachesA w (initState orig) t → allColsCovered t = false →
      ∀ p : St N × Bool, iterateA w t = some p → p.2 = true →
        starCount p.1 = starCount t + 1) ∧
    (∃ sf it au, computeA w N orig = some (sf, it, au) ∧ au ≤ N) := by
  constructor
  · intro t hre hcols p hit hp
    obtain ⟨hcore, hpot, hq⟩ := reaches_inv hw hre
    have hInv : Inv t := by
      rcases hq with h | h
      · exact h
      · rw [h.allCov] at hcols
        exact Bool.noConfusion hcols
    obtain ⟨p', hit', -, -, haug, -, -⟩ := iterateA_spec hw hInv hcols
    rw [hit] at hit'
    injection hit' with he
    rw [← he] at haug
    exact haug hp
  · obtain ⟨sf, it, au, hA, -, hau, -, -, -, -, -⟩ := computeA_spec hw N orig
    exact ⟨sf, it, au, hA, hau⟩

/-- Witness for C2 at `N = 2`, `w = 1` on a concrete matrix. -/
theorem claim_c2_witness :
    1 ≤ 1 ∧
    ((∀ t : St 2, ReachesA 1 (initState (fun r c => ECost.fin (r.val * c.val))) t →
      allColsCovered t = false →
      ∀ p : St 2 × Bool, iterateA 1 t = some p → p.2 = true →
        starCount p.1 = starCount t + 1) ∧
    (∃ sf it au, computeA 1 2 (fun r c => ECost.fin (r.val * c.val)) =
      some (sf, it, au) ∧ au ≤ 2)) :=
  ⟨by decide, claim_c2 2 1 (by decide) (fun r c => ECost.fin (r.val * c.val))⟩

/-- C5: when `updateCosts(h)` runs with `h` the finite minimum returned by
`findMinUncoveredCost()` (the minimum cost over cells with uncovered row and
uncovered column), every cell of the matrix is still `≥ 0` afterwards,
sentinel cells remain sentinel, and some cell at an uncovered row and
uncovered column is exactly zero. -/
theorem claim_c5 (N w : ℕ) (hw : 1 ≤ w) (s : St N)
    (hnn : ∀ r c, (s.cost r c).Nonneg)
    (hfin : fmucW s (colInds s) (rebalanceWorkers N s.rowCovered w) w ≠
      ECost.inf) :
    (∀ r c, ((updateCostsW s
      (fmucW s (colInds s) (rebalanceWorkers N s.rowCovered w) w)
      (colInds s) (rebalanceWorkers N s.rowCovered w) w).cost r c).Nonneg) ∧
    (∀ r c, s.cost r c = ECost.inf → (updateCostsW s
      (fmucW s (colInds s) (rebalanceWorkers N s.rowCovered w) w)
      (colInds s) (rebalanceWorkers N s.rowCovered w) w).cost r c =
      ECost.inf) ∧
    (∃ r c, s.rowCovered r = false ∧ s.colCovered c = false ∧ (updateCostsW s
      (fmucW s (colInds s) (rebalanceWorkers N s.rowCovered w) w)
      (colInds s) (rebalanceWorkers N s.rowCovered w) w).cost r c =
      ECost.fin 0) := by
  rw [fmucW_eq_seqMin s (colInds s) w hw] at hfin ⊢
  rw [updateCostsW_eq_seqUpdate s _ (colInds s) w hw]
  obtain ⟨q, hq0, hqe⟩ : ∃ q : ℚ, 0 ≤ q ∧ seqMin s (colInds s) = ECost.fin q := by
    obtain ⟨r, c, hr, hc, hx⟩ := seqMin_attained hfin
    cases hm : seqMin s (colInds s) with
    | inf => exact absurd hm hfin
    | fin q =>
      refine ⟨q, ?_, rfl⟩
      have hcell := hnn r c
      rw [hx, hm] at hcell
      exact hcell
  rw [hqe]
  refine ⟨?_, ?_, ?_⟩
  · intro r c
    rw [seqUpdate_cost]
    by_cases hr : s.rowCovered r = true <;> by_cases hc : s.colCovered c = true
    · rw [if_pos hr, if_pos hc]
      exact ECost.nonneg_add (hnn r c) hq0
    · rw [if_pos hr, if_neg hc, ECost.add_sub_cancel]
      exact hnn r c
    · rw [if_neg hr, if_pos hc]
      exact hnn r c
    · rw [if_neg hr, if_neg hc]
      refine ECost.nonneg_sub_of_ble ?_
      have := seqMin_ble (bool_not_true hr) (bool_not_true hc)
      rw [hqe] at this
      exact this
  · intro r c hcinf
    rw [seqUpdate_cost, hcinf]
    by_cases hr : s.rowCovered r = true <;> by_cases hc : s.colCovered c = true <;>
      simp [hr, hc, ECost.add, ECost.sub]
  · obtain ⟨r, c, hr, hc, hx⟩ := seqMin_attained hfin
    refine ⟨r, c, hr, hc, ?_⟩
    rw [seqUpdate_cost, if_neg (bool_ne_true hr), if_neg (bool_ne_true hc),
      hx, hqe]
    exact ECost.sub_eq_zero_iff.2 rfl


/-- A concrete 1×1 state with a single finite uncovered cell, for the C5
witness. -/
def c5s : St 1 :=
  { colCovered := fun _ => false, rowCovered := fun _ => false,
    cost := fun _ _ => ECost.fin 1, zeros := fun _ => [],
    primedZeros := fun r => r, starredZeros := fun _ => none }

/-- Witness for C5 on a concrete 1×1 state with a single finite cell. -/
theorem claim_c5_witness :
    1 ≤ 1 ∧
    ((∀ r c, ((updateCostsW c5s
      (fmucW c5s (colInds c5s) (rebalanceWorkers 1 c5s.rowCovered 1) 1)
      (colInds c5s) (rebalanceWorkers 1 c5s.rowCovered 1) 1).cost r c).Nonneg) ∧
    (∀ r c, c5s.cost r c = ECost.inf → (updateCostsW c5s
      (fmucW c5s (colInds c5s) (rebalanceWorkers 1 c5s.rowCovered 1) 1)
      (colInds c5s) (rebalanceWorkers 1 c5s.rowCovered 1) 1).cost r c =
      ECost.inf) ∧
    (∃ r c, c5s.rowCovered r = false ∧ c5s.colCovered c = false ∧
      (updateCostsW c5s
      (fmucW c5s (colInds c5s) (rebalanceWorkers 1 c5s.rowCovered 1) 1)
      (colInds c5s) (rebalanceWorkers 1 c5s.rowCovered 1) 1).cost r c =
      ECost.fin 0)) :=
  ⟨by decide,
    claim_c5 1 1 (by decide) c5s
      (fun _ _ => by show (0:ℚ) ≤ 1; norm_num)
      (by decide)⟩

/-- Entry `r` of the returned vector is the row's `starredZeros` value. -/
theorem resultOf_getElem (s : St N) (r : Fin N) :
    (resultOf s)[r.val]? = some (s.starredZeros r) := by
  unfold resultOf
  have hlt : r.val < ((List.finRange N).map s.starredZeros).length := by
    rw [List.length_map, List.length_finRange]
    exact r.isLt
  rw [List.getElem?_eq_getElem hlt, List.getElem_map]
  have hfr : (List.finRange N)[(r.val : ℕ)] = r := by
    apply Fin.ext
    simp
  rw [hfr]

/-- C6: when `findMinUncoveredCost()` returns the sentinel (every uncovered
cell is the sentinel), `iterate()` marks every column covered, so the guard
of the outer loop holds and `compute()` returns at once without any fault;
the returned vector reports each row's `starredZeros` entry, so every row
without a starred zero appears as the unassigned marker. -/
theorem claim_c6 (N w : ℕ) (hw : 1 ≤ w) (orig : Fin N → Fin N → ECost)
    (t : St N) (_hre : ReachesA w (initState orig) t)
    (s1 : St N) (hil : innerLoop N (N + 1) t = some (s1, false))
    (hmin : fmucW s1 (colInds s1) (rebalanceWorkers N s1.rowCovered w) w =
      ECost.inf) :
    iterateA w t = some ({ s1 with colCovered := fun _ => true }, false) ∧
    allColsCovered { s1 with colCovered := fun _ => true } = true ∧
    (∀ fuel it au, loopA w (fuel + 1) { s1 with colCovered := fun _ => true }
      it au = some ({ s1 with colCovered := fun _ => true }, it, au)) ∧
    (∀ r : Fin N, s1.starredZeros r = none →
      (resultOf { s1 with colCovered := fun _ => true })[r.val]? =
        some none) ∧
    (∃ res, compute w N orig = some res) := by
  rw [fmucW_eq_seqMin s1 (colInds s1) w hw] at hmin
  have hall : allColsCovered { s1 with colCovered := fun _ => true } = true := by
    unfold allColsCovered
    rw [List.all_eq_true]
    intro c _
    rfl
  refine ⟨?_, hall, ?_, ?_, ?_⟩
  · rw [iterateA_of_inner_upd hw hil rfl]
    rw [if_pos hmin]
  · intro fuel it au
    rw [loopA_succ, if_pos hall]
  · intro r hr
    rw [resultOf_getElem]
    show some (s1.starredZeros r) = some none
    rw [hr]
  · obtain ⟨sf, it, au, hA, -, -, -, -, -, -, -⟩ := computeA_spec hw N orig
    refine ⟨resultOf sf, ?_⟩
    unfold compute
    rw [hA]
    rfl

/-- Witness for C6: the 1×1 instance whose single cell is the sentinel. -/
theorem claim_c6_witness :
    1 ≤ 1 ∧
    (iterateA 1 (initState (fun _ _ : Fin 1 => ECost.inf)) =
      some ({ initState (fun _ _ : Fin 1 => ECost.inf) with
        colCovered := fun _ => true }, false) ∧
    allColsCovered { initState (fun _ _ : Fin 1 => ECost.inf) with
      colCovered := fun _ => true } = true ∧
    (∀ fuel it au, loopA 1 (fuel + 1)
      { initState (fun _ _ : Fin 1 => ECost.inf) with colCovered := fun _ => true }
      it au = some ({ initState (fun _ _ : Fin 1 => ECost.inf) with
        colCovered := fun _ => true }, it, au)) ∧
    (∀ r : Fin 1, (initState (fun _ _ : Fin 1 => ECost.inf)).starredZeros r = none →
      (resultOf { initState (fun _ _ : Fin 1 => ECost.inf) with
        colCovered := fun _ => true })[r.val]? = some none) ∧
    (∃ res, compute 1 1 (fun _ _ => ECost.inf) = some res)) :=
  ⟨by decide,
    claim_c6 1 1 (by decide) (fun _ _ => ECost.inf)
      (initState (fun _ _ => ECost.inf)) ReachesA.refl
      (initState (fun _ _ => ECost.inf)) (by rfl) (by decide)⟩

/-- C10 (amended): on a freshly constructed solver with
`max(rows, cols) ≥ 1` on which `setCost` was never invoked (every cell still
holds the sentinel), `compute()` terminates after exactly one `iterate()`
pass and returns a vector of length `max(rows, cols)` whose every entry is
the unassigned marker. -/
theorem claim_c10 (rows cols w : ℕ) (hw : 1 ≤ w)
    (hN : 1 ≤ max rows cols) :
    ∃ sf : St (max rows cols),
      computeA w (max rows cols) (fun _ _ => ECost.inf) = some (sf, 1, 0) ∧
      resultOf sf = List.replicate (max rows cols) none :=
  claim_c10_general (max rows cols) w hw hN

/-- Witness for C10 at `rows = cols = 1`, `w = 1`. -/
theorem claim_c10_witness :
    1 ≤ max 1 1 ∧
    ∃ sf : St (max 1 1),
      computeA 1 (max 1 1) (fun _ _ => ECost.inf) = some (sf, 1, 0) ∧
      resultOf sf = List.replicate (max 1 1) none :=
  ⟨by decide, claim_c10 1 1 1 (by decide) (by decide)⟩

/-- Counterexample to C10 as stated: for `rows = cols = 0` the outer loop
guard is vacuously true, so `compute()` performs zero `iterate()` passes,
not a single one. -/
theorem claim_c10_counterexample :
    (computeA 1 (max 0 0) (fun _ _ => ECost.inf)).map (fun p => p.2.1) =
      some 0 ∧
    (computeA 1 (max 0 0) (fun _ _ => ECost.inf)).map (fun p => p.2.1) ≠
      some 1 := by
  constructor
  · rfl
  · decide

/-- C1: on a square all-finite matrix (`rows = cols = N`, every cell set via
`setCost` to a finite value), `compute()` returns a permutation of `0..N-1`
(no repeated column, no unassigned marker), and the total cost of the
returned assignment is minimal among all permutations. -/
theorem claim_c1 (N w : ℕ) (hw : 1 ≤ w) (f : Fin N → Fin N → ℚ) :
    ∃ σ : Equiv.Perm (Fin N),
      compute w N (fun r c => ECost.fin (f r c)) =
        some ((List.finRange N).map (fun r => some (σ r))) ∧
      ∀ π : Equiv.Perm (Fin N), ∑ r, f r (σ r) ≤ ∑ r, f r (π r) := by
  obtain ⟨sf, it, au, hA, -, -, -, hcore, hpot, hcols, hq⟩ :=
    computeA_spec hw N (fun r c => ECost.fin (f r c))
  have htot := final_total_of_finite hcore hpot hcols hq
  obtain ⟨σ, hσ⟩ := stars_perm hcore htot
  refine ⟨σ, ?_, fun π => stars_optimal hcore hpot σ hσ π⟩
  unfold compute
  rw [hA]
  show some (resultOf sf) = _
  unfold resultOf
  congr 1
  exact List.map_congr_left (fun r _ => hσ r)

/-- Witness for C1 at `N = 2`, `w = 1`. -/
theorem claim_c1_witness :
    1 ≤ 1 ∧
    ∃ σ : Equiv.Perm (Fin 2),
      compute 1 2 (fun r c => ECost.fin ((r.val : ℚ) * c.val)) =
        some ((List.finRange 2).map (fun r => some (σ r))) ∧
      ∀ π : Equiv.Perm (Fin 2),
        ∑ r, ((r.val : ℚ) * (σ r).val) ≤ ∑ r, ((r.val : ℚ) * (π r).val) :=
  ⟨by decide, claim_c1 2 1 (by decide) (fun r c => (r.val : ℚ) * c.val)⟩

/-- C7: on a rectangular input (`rows ≠ cols`) with all finite entries set
via `setCost`, the run terminates with a matching in which every starred
pair lies at a real row and a real column (whose cost is the finite original
entry, so no padding row or column ever appears in a finite-cost match),
every padding row's entry is the unassigned marker, and the shorter
dimension is fully matched: for `rows < cols` every real row is assigned,
for `cols < rows` every real column is assigned. -/
theorem claim_c7 (rows cols w : ℕ) (hw : 1 ≤ w) (_hne : rows ≠ cols)
    (f : ℕ → ℕ → ℚ) :
    ∃ (sf : St (max rows cols)) (it au : ℕ),
      computeA w (max rows cols)
        (mkCost rows cols (fun a b => ECost.fin (f a b))) = some (sf, it, au) ∧
      compute w (max rows cols)
        (mkCost rows cols (fun a b => ECost.fin (f a b))) =
        some (resultOf sf) ∧
      (∀ r c, sf.starredZeros r = some c →
        r.val < rows ∧ c.val < cols ∧
        mkCost rows cols (fun a b => ECost.fin (f a b)) r c =
          ECost.fin (f r.val c.val)) ∧
      (∀ r, rows ≤ r.val → sf.starredZeros r = none) ∧
      (rows < cols → ∀ r : Fin (max rows cols), r.val < rows →
        sf.starredZeros r ≠ none) ∧
      (cols < rows → ∀ c : Fin (max rows cols), c.val < cols →
        ∃ r, sf.starredZeros r = some c) := by
  obtain ⟨sf, it, au, hA, -, -, -, hcore, hpot, hcols, hq⟩ :=
    computeA_spec hw (max rows cols)
      (mkCost rows cols (fun a b => ECost.fin (f a b)))
  obtain ⟨u, v, huv⟩ := hpot
  have hallstarred : allColsCovered sf = true →
      (∀ c, sf.colCovered c = true → ∃ rr, sf.starredZeros rr = some c) →
      ∀ c, ∃ rr, sf.starredZeros rr = some c := by
    intro hac hcs c
    apply hcs c
    unfold allColsCovered at hac
    rw [List.all_eq_true] at hac
    exact hac c (List.mem_finRange c)
  have hcell_fin : ∀ (r c : Fin (max rows cols)), r.val < rows →
      c.val < cols → sf.cost r c ≠ ECost.inf := by
    intro r c hr hc hbad
    rw [huv r c] at hbad
    unfold mkCost at hbad
    rw [if_pos ⟨hr, hc⟩] at hbad
    simp [ECost.sub] at hbad
  have hstar_real : ∀ r c, sf.starredZeros r = some c →
      r.val < rows ∧ c.val < cols ∧
      mkCost rows cols (fun a b => ECost.fin (f a b)) r c =
        ECost.fin (f r.val c.val) := by
    intro r c hs
    have h0 := hcore.starZero r c hs
    have hne_inf : sf.cost r c ≠ ECost.inf := by
      rw [h0]
      exact fun h => ECost.noConfusion h
    by_cases hreal : r.val < rows ∧ c.val < cols
    · refine ⟨hreal.1, hreal.2, ?_⟩
      unfold mkCost
      rw [if_pos hreal]
    · exfalso
      apply hne_inf
      rw [huv r c]
      unfold mkCost
      rw [if_neg hreal]
      rfl
  refine ⟨sf, it, au, hA, ?_, hstar_real, ?_, ?_, ?_⟩
  · unfold compute
    rw [hA]
    rfl
  · intro r hr
    cases hsr : sf.starredZeros r with
    | none => rfl
    | some c =>
      have := (hstar_real r c hsr).1
      omega
  · intro hrc r hr
    rcases hq with hInv | hInf
    · exfalso
      have htot := all_cols_starred_total hcore
        (hallstarred hcols hInv.covColStar)
      have hlt : rows < max rows cols := by omega
      cases hsr : sf.starredZeros ⟨rows, hlt⟩ with
      | none => exact htot ⟨rows, hlt⟩ hsr
      | some c =>
        have h2 : rows < rows := (hstar_real ⟨rows, hlt⟩ c hsr).1
        omega
    · obtain ⟨cc, ⟨c0, hc0⟩, hccstar, hinf⟩ := hInf.exCol
      intro hnone
      have hcov : sf.rowCovered r = true := by
        by_contra hrc2
        have hbad := hinf r c0 (bool_not_true hrc2) hc0
        exact hcell_fin r c0 hr (by have := c0.isLt; omega) hbad
      exact hInf.covHasStar r hcov hnone
  · intro hcr c hc
    rcases hq with hInv | hInf
    · exfalso
      have hlt : cols < max rows cols := by omega
      obtain ⟨rr, hrr⟩ := hallstarred hcols hInv.covColStar ⟨cols, hlt⟩
      have h2 : cols < cols := (hstar_real rr ⟨cols, hlt⟩ hrr).2.1
      omega
    · obtain ⟨cc, ⟨c0, hc0⟩, hccstar, hinf⟩ := hInf.exCol
      by_contra hno
      push_neg at hno
      have hccf : cc c = false := by
        cases hcc2 : cc c with
        | false => rfl
        | true =>
          obtain ⟨rr, hrr⟩ := hccstar c hcc2
          exact absurd hrr (hno rr)
      have hallcov : ∀ rr, sf.rowCovered rr = true := by
        intro rr
        by_contra hrc2
        have hbad := hinf rr c (bool_not_true hrc2) hccf
        exact hcell_fin rr c (by have := rr.isLt; omega) hc hbad
      have htot : ∀ rr, sf.starredZeros rr ≠ none :=
        fun rr => hInf.covHasStar rr (hallcov rr)
      obtain ⟨σ, hσ⟩ := stars_perm hcore htot
      have hs2 : sf.starredZeros (σ.symm c) = some (σ (σ.symm c)) := hσ (σ.symm c)
      rw [Equiv.apply_symm_apply] at hs2
      exact absurd hs2 (hno (σ.symm c))

/-- Witness for C7 at `rows = 1`, `cols = 2`, `w = 1`, the zero matrix. -/
theorem claim_c7_witness :
    (1 : ℕ) ≠ 2 ∧
    ∃ (sf : St (max 1 2)) (it au : ℕ),
      computeA 1 (max 1 2)
        (mkCost 1 2 (fun a b => ECost.fin ((a : ℚ) + b))) = some (sf, it, au) ∧
      compute 1 (max 1 2)
        (mkCost 1 2 (fun a b => ECost.fin ((a : ℚ) + b))) =
        some (resultOf sf) ∧
      (∀ r c, sf.starredZeros r = some c →
        r.val < 1 ∧ c.val < 2 ∧
        mkCost 1 2 (fun a b => ECost.fin ((a : ℚ) + b)) r c =
          ECost.fin ((r.val : ℚ) + c.val)) ∧
      (∀ r, 1 ≤ r.val → sf.starredZeros r = none) ∧
      (1 < 2 → ∀ r : Fin (max 1 2), r.val < 1 → sf.starredZeros r ≠ none) ∧
      (2 < 1 → ∀ c : Fin (max 1 2), c.val < 2 →
        ∃ r, sf.starredZeros r = some c) :=
  ⟨by decide, claim_c7 1 2 1 (by decide) (by decide)
    (fun a b => (a : ℚ) + b)⟩
